import Mathlib

set_option maxHeartbeats 1000000

/-!
Verification of the substitution-set builder in
`frontend/price_per_unit/substitution_sets.py`.

The Python module is shallowly embedded below.  Python dicts are modelled as
association lists with unique keys: assignment keeps the position of an
existing key and appends a new key at the end, which reproduces dict insertion
order.  File reading is out of scope; the loader takes the parsed CSV rows as
a list of records, and the external name resolver is a function parameter.
Assertions are modelled with `Except`: a failing assertion aborts the whole
computation with an error value.
-/

/-- Lookup in an association list, modelling Python dict access
`m[k]` / `m.get(k)`.  The lists built below always have unique keys. -/
def lookupA {κ β : Type} [DecidableEq κ] : List (κ × β) → κ → Option β
  | [], _ => none
  | (k, v) :: rest, k0 => if k0 = k then some v else lookupA rest k0

/-- Update or insert in an association list, modelling Python dict assignment
`m[k] = v`: an existing key keeps its position and gets the new value, a new
key is appended at the end (dict insertion order). -/
def updA {κ β : Type} [DecidableEq κ] : List (κ × β) → κ → β → List (κ × β)
  | [], k0, v0 => [(k0, v0)]
  | (k, v) :: rest, k0, v0 =>
    if k0 = k then (k0, v0) :: rest else (k, v) :: updA rest k0 v0

/-- Python slice `s[i:j]` on a string (character based, as in Python 3). -/
def stringSlice (s : String) (i j : Nat) : String :=
  String.mk ((s.toList.drop i).take (j - i))

/-- Python `str.strip()`: remove leading and trailing whitespace.  Written
structurally over the character list so that it evaluates by reduction (the
fields stripped here are plain ASCII). -/
def pyStrip (s : String) : String :=
  String.mk (((s.toList.dropWhile Char.isWhitespace).reverse.dropWhile
    Char.isWhitespace).reverse)

/-- Lexicographic comparison of character lists by code point, the order
Python uses on strings.  Written structurally so that it evaluates by
reduction; it agrees with the `String` linear order (see `strLe_iff`). -/
def charListLe : List Char → List Char → Bool
  | [], _ => true
  | _ :: _, [] => false
  | c :: cs, d :: ds => if c = d then charListLe cs ds else decide (c < d)

/-- Python string comparison `a <= b`. -/
def strLe (a b : String) : Bool :=
  charListLe a.toList b.toList

/-- `sorted(...)` from Python: ascending lexicographic sort of strings. -/
def sortStrings (l : List String) : List String :=
  l.insertionSort fun a b => strLe a b

/-- One token of a verbose-regex alternative from `EXCLUSIONS_RE`: a literal
character or the `.` wildcard. -/
inductive PatChar where
  | lit (c : Char)
  | any
deriving DecidableEq

/-- Translate one alternative of the verbose regex into tokens: `.` becomes
the wildcard, every other character in these patterns is a literal. -/
def patOf (s : String) : List PatChar :=
  s.toList.map fun c => if c = '.' then PatChar.any else PatChar.lit c

/--
The alternatives of `EXCLUSIONS_RE`.  The regex is used with `re.match`,
which anchors at the start of the string only, so an alternative matches a
code exactly when its tokens match a prefix of the code.  The alternative
`0904010H0.*` carries a trailing `.*` which imposes no constraint under
prefix matching, so it is embedded as its 9 literal characters.
-/
def EXCLUSIONS_RE : List (List PatChar) :=
  [ patOf "0302000C0....BE"
  , patOf "0302000C0....BF"
  , patOf "0302000C0....BH"
  , patOf "0302000C0....BG"
  , patOf "0904010H0"
  , patOf "1311070S0....AA"
  , patOf "1311020L0....BS"
  , patOf "0301020S0....AA"
  , patOf "190700000BBCJA0"
  , patOf "0604011L0BGAAAH"
  , patOf "1502010J0....BY"
  , patOf "1201010F0AAAAAA"
  , patOf "0107010S0AAAGAG"
  , patOf "060016000BBAAA0"
  , patOf "190201000AABJBJ"
  , patOf "190201000AABKBK"
  , patOf "190201000AABLBL"
  , patOf "190201000AABMBM"
  , patOf "190201000AABNBN"
  , patOf "190202000AAADAD" ]

/-- Anchored match of one pattern against a character list: the tokens must
match a prefix of the input.  The regex `.` wildcard matches any character
except a newline. -/
def patMatch : List PatChar → List Char → Bool
  | [], _ => true
  | _ :: _, [] => false
  | PatChar.lit l :: ps, c :: cs => l == c && patMatch ps cs
  | PatChar.any :: ps, c :: cs => c != '\n' && patMatch ps cs

/-- `EXCLUSIONS_RE.match(bnf_code)` viewed as a Boolean. -/
def exclusionsMatch (bnf_code : String) : Bool :=
  EXCLUSIONS_RE.any fun p => patMatch p bnf_code.toList

/-- The `GENERIC_SUB_PARAGRAPHS` dict: sub-paragraph prefixes whose whole
sub-paragraph is substitutable, with display names. -/
def GENERIC_SUB_PARAGRAPHS : List (String × String) :=
  [ ("0601060U0", "Urine Testing Reagents")
  , ("0601060D0", "Glucose Blood Testing Reagents") ]

/--
`generic_equivalent_for_bnf_code`: the generic equivalent BNF code for a
supplied BNF code, or none if there is no such equivalent.  Mirrors the
source line by line: length check, exclusion-regex check, then the
`prefix + "AA" + suffix + suffix` construction guarded by
`suffix != "A0" or prefix in GENERIC_SUB_PARAGRAPHS`.
-/
def generic_equivalent_for_bnf_code (bnf_code : String) : Option String :=
  if bnf_code.length ≠ 15 then none
  else if exclusionsMatch bnf_code then none
  else
    let sub_paragraph_and_chemical := stringSlice bnf_code 0 9
    let generic_strength_and_formulation := stringSlice bnf_code 13 15
    if generic_strength_and_formulation ≠ "A0"
        ∨ (GENERIC_SUB_PARAGRAPHS.map Prod.fst).contains sub_paragraph_and_chemical then
      some (sub_paragraph_and_chemical ++ "AA"
        ++ generic_strength_and_formulation ++ generic_strength_and_formulation)
    else none

/-!
`groups_from_pairs` keeps a dict mapping each element to the (mutable) list
holding its group.  Object identity of those lists is modelled by numbering
each created list with a fresh tag: `assign` maps an element to the tag of
the list object it points at, `contents` maps a tag to the elements of that
list.  A list merged away stays in `contents` as a dead entry, exactly like
the unreferenced Python list object.
-/
structure GroupsState (α : Type) where
  assign : List (α × Nat)
  contents : List (Nat × List α)
  next : Nat

/-- `group = groups.setdefault(element, [element])`: returns the tag of the
group list for `element`, creating a fresh singleton list if absent. -/
def setdefaultStep {α : Type} [DecidableEq α] (s : GroupsState α) (a : α) :
    Nat × GroupsState α :=
  match lookupA s.assign a with
  | some g => (g, s)
  | none =>
    (s.next,
      ⟨s.assign ++ [(a, s.next)], s.contents ++ [(s.next, [a])], s.next + 1⟩)

/--
The body of the loop: `other_group = groups.get(other_element, [other_element])`
followed by `if other_group is not group: group.extend(other_group);
for member in other_group: groups[member] = group`.  When `other_element` is
absent, the fresh singleton `[other_element]` is a distinct object, so the
merge always happens; when present, object identity is tag equality.
-/
def mergeStep {α : Type} [DecidableEq α] (s : GroupsState α) (ga : Nat) (b : α) :
    GroupsState α :=
  match lookupA s.assign b with
  | some gb =>
    if gb = ga then s
    else
      let la := (lookupA s.contents ga).getD []
      let lb := (lookupA s.contents gb).getD []
      ⟨lb.foldl (fun m x => updA m x ga) s.assign,
        updA s.contents ga (la ++ lb), s.next⟩
  | none =>
    let la := (lookupA s.contents ga).getD []
    ⟨updA s.assign b ga, updA s.contents ga (la ++ [b]), s.next⟩

/-- One iteration of the loop over `pairs`. -/
def groupsStep {α : Type} [DecidableEq α] (s : GroupsState α) (p : α × α) :
    GroupsState α :=
  mergeStep (setdefaultStep s p.1).2 (setdefaultStep s p.1).1 p.2

/--
`groups_from_pairs`: combines overlapping pairs into groups.  The final loop
`for element, group in groups.items(): if element == group[0]: yield group`
emits each group list once, at its leading element. -/
def groups_from_pairs {α : Type} [DecidableEq α] (pairs : List (α × α)) :
    List (List α) :=
  let s := pairs.foldl groupsStep ⟨[], [], 0⟩
  s.assign.filterMap fun e =>
    let grp := (lookupA s.contents e.2).getD []
    if grp.head? = some e.1 then some grp else none

/-- One parsed CSV record of the formulation swaps file.  Field names follow
the CSV columns `Code`, `Alternative code`, `Formulation`,
`Alternative formulation`, `Really equivalent?`. -/
structure SwapRow where
  code : String
  alternative_code : String
  formulation : String
  alternative_formulation : String
  really_equivalent : String
deriving DecidableEq

/--
The row loop of `read_formulation_swaps_file`: skips rows whose trimmed
`Really equivalent?` field is not exactly `"Y"`, checks the three assertions
on each accepted row (aborting the whole load on failure), and accumulates
the `code_pairs` list and the `formulations` dict.
-/
def processRows : List SwapRow → List (String × String) → List (String × String) →
    Except String (List (String × String) × List (String × String))
  | [], code_pairs, formulations => .ok (code_pairs, formulations)
  | row :: rest, code_pairs, formulations =>
    if pyStrip row.really_equivalent ≠ "Y" then processRows rest code_pairs formulations
    else
      let code := pyStrip row.code
      let alternative_code := pyStrip row.alternative_code
      if generic_equivalent_for_bnf_code code ≠ some code then
        .error "assertion failed: code == generic_equivalent_for_bnf_code(code)"
      else if generic_equivalent_for_bnf_code alternative_code ≠ some alternative_code then
        .error "assertion failed: alternative_code == generic_equivalent_for_bnf_code(alternative_code)"
      else if code = alternative_code then
        .error "assertion failed: code != alternative_code"
      else
        processRows rest (code_pairs ++ [(code, alternative_code)])
          (updA (updA formulations code (pyStrip row.formulation))
            alternative_code (pyStrip row.alternative_formulation))

/--
`read_formulation_swaps_file` over parsed rows: groups of substitutable
generic presentations with their formulation lists.  The Python expression
`[f for f in set(map(formulations.get, code_group)) if f]` is embedded as a
dedup followed by dropping missing and empty entries; the iteration order of
a Python set is unspecified and every later use of this list (its length and
its sorted join) is order-insensitive.
-/
def read_formulation_swaps_file (rows : List SwapRow) :
    Except String (List (List String × List String)) :=
  (processRows rows [] []).map fun pf =>
    (groups_from_pairs pf.1).map fun code_group =>
      (code_group,
        ((code_group.map (lookupA pf.2)).dedup.filterMap id).filter (fun f => f ≠ ""))

/-- `sorted(codes)[0]`: the lexically smallest code of a group.  Groups are
never empty, so the default is never consulted. -/
def primaryCode (codes : List String) : String :=
  (sortStrings codes).headD ""

/--
`get_formulation_swaps` over parsed rows: the `swaps` dict mapping every
code of a group to the primary code, and the `swap_descriptions` dict
mapping the primary code to the sorted `" / "` join of the formulations
when more than one is involved.
-/
def get_formulation_swaps (rows : List SwapRow) :
    Except String (List (String × String) × List (String × String)) :=
  (read_formulation_swaps_file rows).map fun groupsList =>
    groupsList.foldl
      (fun acc cf =>
        let primary_code := primaryCode cf.1
        (cf.1.foldl (fun m code => updA m code primary_code) acc.1,
          if cf.2.length > 1 then
            updA acc.2 primary_code (String.intercalate " / " (sortStrings cf.2))
          else acc.2))
      ([], [])

/-- The `SubstitutionSet` record.  The builder always supplies a name
(`"unknown"` when unresolvable), so `name` is a plain string here. -/
structure SubstitutionSet where
  id : String
  presentations : List String
  name : String
  formulation_swaps : Option String
deriving DecidableEq

/-- `defaultdict(list)` accumulation: `presentation_sets[k].append(v)`.
First touch of a key inserts it at the end, later appends keep its place. -/
def appendAt : List (String × List String) → String → String → List (String × List String)
  | [], k, v => [(k, [v])]
  | (k0, l) :: rest, k, v =>
    if k = k0 then (k0, l ++ [v]) :: rest else (k0, l) :: appendAt rest k v

/--
`get_names_for_bnf_codes` with the external `Presentation.names_for_bnf_codes`
collaborator abstracted as a `resolver` function: the resolved entries for
the requested codes, then the synthetic sub-paragraph names written on top.
-/
def get_names_for_bnf_codes (resolver : String → Option String)
    (bnf_codes : List String) : List (String × String) :=
  GENERIC_SUB_PARAGRAPHS.foldl (fun m sp => updA m (sp.1 ++ "AAA0A0") sp.2)
    (bnf_codes.filterMap fun c => (resolver c).map fun n => (c, n))

/--
`get_substitution_sets_from_bnf_codes`: classify every input code, remap the
generic through `swaps`, accumulate presentation lists per resulting key,
then build one `SubstitutionSet` per key with more than one presentation.
The `if generic_code:` truthiness test in the source is an `isSome` test
here: a returned generic code is never the empty string (it always contains
the 9 character prefix of a 15 character code).
-/
def get_substitution_sets_from_bnf_codes (bnf_codes : List String)
    (rows : List SwapRow) (resolver : String → Option String) :
    Except String (List SubstitutionSet) :=
  (get_formulation_swaps rows).map fun sd =>
    let presentation_sets := bnf_codes.foldl
      (fun acc bnf_code =>
        match generic_equivalent_for_bnf_code bnf_code with
        | some generic_code => appendAt acc ((lookupA sd.1 generic_code).getD generic_code) bnf_code
        | none => acc)
      []
    let names := get_names_for_bnf_codes resolver (presentation_sets.map Prod.fst)
    (presentation_sets.filter fun kv => kv.2.length > 1).map fun kv =>
      { id := kv.1
        name := (lookupA names kv.1).getD "unknown"
        presentations := sortStrings kv.2
        formulation_swaps := lookupA sd.2 kv.1 }

/-! ### Specification-side notions -/

/-- The undirected edge relation read off a pair list: `x` and `y` are
directly linked when some pair joins them in either orientation. -/
def pairRel {α : Type} (ps : List (α × α)) (x y : α) : Prop :=
  (x, y) ∈ ps ∨ (y, x) ∈ ps

/-- An element is mentioned by the pair list. -/
def seenE {α : Type} (ps : List (α × α)) (x : α) : Prop :=
  ∃ p ∈ ps, p.1 = x ∨ p.2 = x

instance {α : Type} [DecidableEq α] (ps : List (α × α)) (x : α) :
    Decidable (seenE ps x) := by
  unfold seenE
  infer_instance

/-- Connectivity in the undirected graph whose edges are the pairs: the
equivalence closure of `pairRel`. -/
def connectedIn {α : Type} (ps : List (α × α)) : α → α → Prop :=
  Relation.EqvGen (pairRel ps)

/-- The equivalence generated by `r` together with one extra edge `(a, b)`,
in closed form (valid when `r` is itself an equivalence). -/
def joinRel {α : Type} (r : α → α → Prop) (a b : α) (x y : α) : Prop :=
  r x y ∨ (r x a ∧ r b y) ∨ (r x b ∧ r a y)

/-- `G` is, as a set of sets, exactly the family of connected components of
the pair graph `ps`: the groups cover precisely the mentioned elements, each
group is the full component of each of its members, no group is empty, and
the groups are pairwise disjoint (so no component is listed twice). -/
def isComponents {α : Type} (ps : List (α × α)) (G : List (List α)) : Prop :=
  (∀ x, seenE ps x ↔ ∃ g ∈ G, x ∈ g) ∧
  (∀ g ∈ G, ∀ x ∈ g, ∀ y, (y ∈ g ↔ (connectedIn ps x y ∧ seenE ps y))) ∧
  (∀ g ∈ G, g ≠ []) ∧
  List.Pairwise (fun g h => ∀ x, x ∈ g → x ∉ h) G

/--
A second merger, following the wording of the claim that the smaller of the
two groups is appended to the larger one (rather than the second group to
the first, as the source does).  Ties, and the fresh singleton created for
an unseen second element, go into the existing first group.  Written only to
be compared with `mergeStep`.
-/
def mergeStepSmallerIntoLarger {α : Type} [DecidableEq α] (s : GroupsState α)
    (ga : Nat) (b : α) : GroupsState α :=
  match lookupA s.assign b with
  | some gb =>
    if gb = ga then s
    else
      let la := (lookupA s.contents ga).getD []
      let lb := (lookupA s.contents gb).getD []
      if lb.length ≤ la.length then
        ⟨lb.foldl (fun m x => updA m x ga) s.assign,
          updA s.contents ga (la ++ lb), s.next⟩
      else
        ⟨la.foldl (fun m x => updA m x gb) s.assign,
          updA s.contents gb (lb ++ la), s.next⟩
  | none =>
    let la := (lookupA s.contents ga).getD []
    ⟨updA s.assign b ga, updA s.contents ga (la ++ [b]), s.next⟩

/-- `groups_from_pairs` with the smaller-into-larger merge policy of the
claim, for comparison with the source behaviour. -/
def groupsFromPairsSmallerIntoLarger {α : Type} [DecidableEq α]
    (pairs : List (α × α)) : List (List α) :=
  let s := pairs.foldl
    (fun s p => mergeStepSmallerIntoLarger (setdefaultStep s p.1).2 (setdefaultStep s p.1).1 p.2)
    ⟨[], [], 0⟩
  s.assign.filterMap fun e =>
    let grp := (lookupA s.contents e.2).getD []
    if grp.head? = some e.1 then some grp else none

/-- The formulation label one accepted row attaches to the code `c`: the
`Alternative formulation` field when `c` is its `Alternative code`, else the
`Formulation` field when `c` is its `Code`, else nothing (also nothing when
the row is not accepted). -/
def rowLabel (c : String) (row : SwapRow) : Option String :=
  if pyStrip row.really_equivalent = "Y" then
    if pyStrip row.alternative_code = c then some (pyStrip row.alternative_formulation)
    else if pyStrip row.code = c then some (pyStrip row.formulation)
    else none
  else none

/-- One step of the last-writer-wins accumulation of labels. -/
def lastLabelStep (c : String) (acc : Option String) (row : SwapRow) : Option String :=
  match rowLabel c row with
  | some l => some l
  | none => acc

/-- The formulation label the loader is left with for a code: the label from
the most recent accepted row mentioning the code, the row field
`Alternative formulation` applying to its `Alternative code` and
`Formulation` to its `Code`. -/
def lastLabelAux (rows : List SwapRow) (c : String) : Option String :=
  rows.foldl (lastLabelStep c) none

/-- The pairs accumulated by a successful run of the row loop: one
`(code, alternative_code)` pair per accepted row, in row order. -/
def pairsOfRows (rows : List SwapRow) : List (String × String) :=
  (rows.filter fun r => pyStrip r.really_equivalent == "Y").map
    fun r => (pyStrip r.code, pyStrip r.alternative_code)

/-- The formulations dict accumulated by a successful run of the row loop. -/
def formsOfRows (rows : List SwapRow) (m : List (String × String)) :
    List (String × String) :=
  rows.foldl
    (fun m row =>
      if pyStrip row.really_equivalent = "Y" then
        updA (updA m (pyStrip row.code) (pyStrip row.formulation))
          (pyStrip row.alternative_code) (pyStrip row.alternative_formulation)
      else m)
    m

deriving instance DecidableEq for Except

/-- The formulation list computed for one code group by
`read_formulation_swaps_file` (same expression as in its body, named so that
lemmas can speak about it). -/
def groupFormulations (formulations : List (String × String))
    (code_group : List String) : List String :=
  ((code_group.map (lookupA formulations)).dedup.filterMap id).filter (fun f => f ≠ "")

/-- The `swaps` component of the `get_formulation_swaps` fold, on its own. -/
def swapsFold (gl : List (List String × List String)) (m : List (String × String)) :
    List (String × String) :=
  gl.foldl (fun m cf => cf.1.foldl (fun m code => updA m code (primaryCode cf.1)) m) m

/-- The `swap_descriptions` component of the `get_formulation_swaps` fold, on
its own. -/
def descsFold (gl : List (List String × List String)) (m : List (String × String)) :
    List (String × String) :=
  gl.foldl (fun m cf =>
    if cf.2.length > 1 then
      updA m (primaryCode cf.1) (String.intercalate " / " (sortStrings cf.2))
    else m) m

/-- One iteration of the builder accumulation loop: classify the code, remap
through `swaps`, and append under the resulting key (skip when there is no
generic equivalent).  Same body as the fold inside
`get_substitution_sets_from_bnf_codes`. -/
def builderStep (swaps : List (String × String)) (acc : List (String × List String))
    (bnf_code : String) : List (String × List String) :=
  match generic_equivalent_for_bnf_code bnf_code with
  | some generic_code => appendAt acc ((lookupA swaps generic_code).getD generic_code) bnf_code
  | none => acc

/-- A swap-file row that fails one of the loader assertions: a code that is
not its own generic equivalent, or a code declared equivalent to itself. -/
def badSwapRow (row : SwapRow) : Prop :=
  generic_equivalent_for_bnf_code (pyStrip row.code) ≠ some (pyStrip row.code) ∨
  generic_equivalent_for_bnf_code (pyStrip row.alternative_code) ≠ some (pyStrip row.alternative_code) ∨
  pyStrip row.code = pyStrip row.alternative_code

instance (row : SwapRow) : Decidable (badSwapRow row) := by
  unfold badSwapRow; infer_instance

/-- `swaps.get(generic_code, generic_code)`: remap through the swaps dict,
identity when absent. -/
def swapsGet (swaps : List (String × String)) (g : String) : String :=
  (lookupA swaps g).getD g

/-- The grouping key the builder files a BNF code under: its generic
equivalent remapped through `swaps`, or none when there is no generic. -/
def targetOf (swaps : List (String × String)) (b : String) : Option String :=
  (generic_equivalent_for_bnf_code b).map (swapsGet swaps)

/-! ### Association list lemmas -/

theorem lookupA_updA_self {κ β : Type} [DecidableEq κ] (m : List (κ × β)) (k : κ) (v : β) :
    lookupA (updA m k v) k = some v := by
  induction m with
  | nil => simp [updA, lookupA]
  | cons kv rest ih =>
    obtain ⟨k0, v0⟩ := kv
    by_cases h : k = k0
    · simp [updA, h, lookupA]
    · simp [updA, h, lookupA, ih]

theorem lookupA_updA_ne {κ β : Type} [DecidableEq κ] (m : List (κ × β)) (k k' : κ) (v : β)
    (h : k' ≠ k) : lookupA (updA m k v) k' = lookupA m k' := by
  induction m with
  | nil => simp [updA, lookupA, h]
  | cons kv rest ih =>
    obtain ⟨k0, v0⟩ := kv
    by_cases hk : k = k0
    · subst hk; simp [updA, lookupA, h]
    · by_cases hk' : k' = k0
      · simp [updA, hk, lookupA, hk']
      · simp [updA, hk, lookupA, hk', ih]

theorem lookupA_isSome_iff {κ β : Type} [DecidableEq κ] (m : List (κ × β)) (k : κ) :
    (lookupA m k).isSome ↔ k ∈ m.map Prod.fst := by
  induction m with
  | nil => simp [lookupA]
  | cons kv rest ih =>
    obtain ⟨k0, v0⟩ := kv
    by_cases h : k = k0
    · simp [lookupA, h]
    · simp [lookupA, h, ih]

theorem lookupA_none_iff {κ β : Type} [DecidableEq κ] (m : List (κ × β)) (k : κ) :
    lookupA m k = none ↔ k ∉ m.map Prod.fst := by
  rw [← lookupA_isSome_iff, Option.isSome_iff_exists]
  cases lookupA m k <;> simp

theorem keys_updA {κ β : Type} [DecidableEq κ] (m : List (κ × β)) (k : κ) (v : β) :
    (updA m k v).map Prod.fst =
      if k ∈ m.map Prod.fst then m.map Prod.fst else m.map Prod.fst ++ [k] := by
  induction m with
  | nil => simp [updA]
  | cons kv rest ih =>
    obtain ⟨k0, v0⟩ := kv
    by_cases h : k = k0
    · simp [updA, h]
    · simp only [updA, if_neg h, List.map_cons]
      rw [ih]
      by_cases hm : k ∈ rest.map Prod.fst
      · simp [hm, Ne.symm h, h]
      · simp [hm, Ne.symm h, h]

theorem nodupKeys_updA {κ β : Type} [DecidableEq κ] (m : List (κ × β)) (k : κ) (v : β)
    (h : (m.map Prod.fst).Nodup) : ((updA m k v).map Prod.fst).Nodup := by
  rw [keys_updA]
  by_cases hm : k ∈ m.map Prod.fst
  · simpa [hm] using h
  · rw [if_neg hm]
    exact List.Nodup.append h (List.nodup_singleton k)
      (by simpa [List.disjoint_singleton] using hm)

theorem lookupA_append {κ β : Type} [DecidableEq κ] (m l : List (κ × β)) (k : κ) :
    lookupA (m ++ l) k = match lookupA m k with
      | some v => some v
      | none => lookupA l k := by
  induction m with
  | nil => simp [lookupA]
  | cons kv rest ih =>
    obtain ⟨k0, v0⟩ := kv
    by_cases h : k = k0
    · simp [lookupA, h]
    · simp [lookupA, h, ih]

theorem mem_of_lookupA_eq {κ β : Type} [DecidableEq κ] (m : List (κ × β)) (k : κ) (v : β)
    (h : lookupA m k = some v) : (k, v) ∈ m := by
  induction m with
  | nil => simp [lookupA] at h
  | cons kv rest ih =>
    obtain ⟨k0, v0⟩ := kv
    by_cases hk : k = k0
    · subst hk
      have h' : v0 = v := by simpa [lookupA] using h
      simp [h']
    · have h' : lookupA rest k = some v := by simpa [lookupA, hk] using h
      exact List.mem_cons_of_mem _ (ih h')

theorem lookupA_eq_of_mem {κ β : Type} [DecidableEq κ] (m : List (κ × β)) (k : κ) (v : β)
    (hnd : (m.map Prod.fst).Nodup) (hm : (k, v) ∈ m) : lookupA m k = some v := by
  induction m with
  | nil => simp at hm
  | cons kv rest ih =>
    obtain ⟨k0, v0⟩ := kv
    simp only [List.map_cons, List.nodup_cons] at hnd
    rcases List.mem_cons.mp hm with h | h
    · cases h
      simp [lookupA]
    · have hk : k ≠ k0 := by
        rintro rfl
        exact hnd.1 (List.mem_map.mpr ⟨(k, v), h, rfl⟩)
      simp [lookupA, hk, ih hnd.2 h]

theorem foldl_updA_const_lookup {κ β : Type} [DecidableEq κ] (l : List κ) (m : List (κ × β))
    (g : β) (k : κ) :
    lookupA (l.foldl (fun m x => updA m x g) m) k =
      if k ∈ l then some g else lookupA m k := by
  induction l generalizing m with
  | nil => simp
  | cons x xs ih =>
    simp only [List.foldl_cons]
    rw [ih]
    by_cases hx : k ∈ xs
    · simp [hx]
    · by_cases hk : k = x
      · subst hk; simp [hx, lookupA_updA_self]
      · simp [hx, hk, lookupA_updA_ne _ _ _ _ hk]

theorem keys_foldl_updA_of_mem {κ β : Type} [DecidableEq κ] (l : List κ) (m : List (κ × β))
    (g : β) (hsub : ∀ x ∈ l, x ∈ m.map Prod.fst) :
    (l.foldl (fun m x => updA m x g) m).map Prod.fst = m.map Prod.fst := by
  induction l generalizing m with
  | nil => simp
  | cons x xs ih =>
    simp only [List.foldl_cons]
    have hx : x ∈ m.map Prod.fst := hsub x (by simp)
    have hkeys : (updA m x g).map Prod.fst = m.map Prod.fst := by
      rw [keys_updA, if_pos hx]
    rw [ih (updA m x g) (fun y hy => by rw [hkeys]; exact hsub y (List.mem_cons_of_mem _ hy)),
      hkeys]

theorem groups_from_pairs_doctest :
    groups_from_pairs [(1, 2), (3, 4), (5, 6), (1, 3)] = [[1, 2, 3, 4], [5, 6]] := by decide

/-! ### Graph relation lemmas -/

theorem pairRel_support {α : Type} (ps : List (α × α)) (x y : α) (h : pairRel ps x y) :
    seenE ps x ∧ seenE ps y := by
  rcases h with h | h
  · exact ⟨⟨(x, y), h, Or.inl rfl⟩, ⟨(x, y), h, Or.inr rfl⟩⟩
  · exact ⟨⟨(y, x), h, Or.inr rfl⟩, ⟨(y, x), h, Or.inl rfl⟩⟩

theorem connectedIn_equivalence {α : Type} (ps : List (α × α)) :
    Equivalence (connectedIn ps) :=
  Relation.EqvGen.is_equivalence _

theorem connectedIn_support {α : Type} (ps : List (α × α)) (x y : α)
    (h : connectedIn ps x y) : x = y ∨ (seenE ps x ∧ seenE ps y) := by
  induction h with
  | rel a b hab => exact Or.inr (pairRel_support ps a b hab)
  | refl a => exact Or.inl rfl
  | symm a b _ ih =>
    rcases ih with h | h
    · exact Or.inl h.symm
    · exact Or.inr ⟨h.2, h.1⟩
  | trans a b c _ _ ih1 ih2 =>
    rcases ih1 with h1 | h1
    · rcases ih2 with h2 | h2
      · exact Or.inl (h1.trans h2)
      · exact Or.inr ⟨h1 ▸ h2.1, h2.2⟩
    · rcases ih2 with h2 | h2
      · exact Or.inr ⟨h1.1, h2 ▸ h1.2⟩
      · exact Or.inr ⟨h1.1, h2.2⟩

theorem joinRel_of_rel {α : Type} {r : α → α → Prop} {a b x y : α} (h : r x y) :
    joinRel r a b x y := Or.inl h

theorem joinRel_symm {α : Type} {r : α → α → Prop} (hr : Equivalence r) {a b x y : α}
    (h : joinRel r a b x y) : joinRel r a b y x := by
  rcases h with h | ⟨h1, h2⟩ | ⟨h1, h2⟩
  · exact Or.inl (hr.symm h)
  · exact Or.inr (Or.inr ⟨hr.symm h2, hr.symm h1⟩)
  · exact Or.inr (Or.inl ⟨hr.symm h2, hr.symm h1⟩)

theorem joinRel_trans {α : Type} {r : α → α → Prop} (hr : Equivalence r) {a b x y z : α}
    (h1 : joinRel r a b x y) (h2 : joinRel r a b y z) : joinRel r a b x z := by
  rcases h1 with h1 | ⟨h1a, h1b⟩ | ⟨h1a, h1b⟩ <;>
    rcases h2 with h2 | ⟨h2a, h2b⟩ | ⟨h2a, h2b⟩
  · exact Or.inl (hr.trans h1 h2)
  · exact Or.inr (Or.inl ⟨hr.trans h1 h2a, h2b⟩)
  · exact Or.inr (Or.inr ⟨hr.trans h1 h2a, h2b⟩)
  · exact Or.inr (Or.inl ⟨h1a, hr.trans h1b h2⟩)
  · exact Or.inr (Or.inl ⟨h1a, h2b⟩)
  · exact Or.inl (hr.trans h1a h2b)
  · exact Or.inr (Or.inr ⟨h1a, hr.trans h1b h2⟩)
  · exact Or.inl (hr.trans h1a h2b)
  · exact Or.inr (Or.inr ⟨h1a, h2b⟩)

theorem joinRel_equivalence {α : Type} {r : α → α → Prop} (hr : Equivalence r) (a b : α) :
    Equivalence (joinRel r a b) :=
  ⟨fun x => Or.inl (hr.refl x), fun h => joinRel_symm hr h, fun h1 h2 => joinRel_trans hr h1 h2⟩

theorem joinRel_eq_of_rel_ab {α : Type} {r : α → α → Prop} (hr : Equivalence r) {a b : α}
    (hab : r a b) (x y : α) : joinRel r a b x y ↔ r x y := by
  constructor
  · rintro (h | ⟨h1, h2⟩ | ⟨h1, h2⟩)
    · exact h
    · exact hr.trans (hr.trans h1 hab) h2
    · exact hr.trans (hr.trans h1 (hr.symm hab)) h2
  · exact joinRel_of_rel

theorem seenE_append {α : Type} (ps : List (α × α)) (p : α × α) (x : α) :
    seenE (ps ++ [p]) x ↔ seenE ps x ∨ x = p.1 ∨ x = p.2 := by
  simp only [seenE, List.mem_append, List.mem_singleton]
  constructor
  · rintro ⟨q, hq | rfl, hx⟩
    · exact Or.inl ⟨q, hq, hx⟩
    · rcases hx with h | h
      · exact Or.inr (Or.inl h.symm)
      · exact Or.inr (Or.inr h.symm)
  · rintro (⟨q, hq, hx⟩ | rfl | rfl)
    · exact ⟨q, Or.inl hq, hx⟩
    · exact ⟨p, Or.inr rfl, Or.inl rfl⟩
    · exact ⟨p, Or.inr rfl, Or.inr rfl⟩

theorem pairRel_append {α : Type} (ps : List (α × α)) (p : α × α) (x y : α) :
    pairRel (ps ++ [p]) x y ↔
      pairRel ps x y ∨ (x = p.1 ∧ y = p.2) ∨ (x = p.2 ∧ y = p.1) := by
  simp only [pairRel, List.mem_append, List.mem_singleton, Prod.ext_iff]
  tauto

theorem connectedIn_append {α : Type} (ps : List (α × α)) (p : α × α) (x y : α) :
    connectedIn (ps ++ [p]) x y ↔ joinRel (connectedIn ps) p.1 p.2 x y := by
  have hre := connectedIn_equivalence ps
  constructor
  · intro h
    induction h with
    | rel u v huv =>
      rcases (pairRel_append ps p u v).mp huv with h | ⟨rfl, rfl⟩ | ⟨rfl, rfl⟩
      · exact Or.inl (Relation.EqvGen.rel _ _ h)
      · exact Or.inr (Or.inl ⟨hre.refl _, hre.refl _⟩)
      · exact Or.inr (Or.inr ⟨hre.refl _, hre.refl _⟩)
    | refl u => exact Or.inl (hre.refl u)
    | symm u v _ ih => exact joinRel_symm hre ih
    | trans u v w _ _ ih1 ih2 => exact joinRel_trans hre ih1 ih2
  · have hmono : ∀ u v, connectedIn ps u v → connectedIn (ps ++ [p]) u v :=
      fun u v h => Relation.EqvGen.mono
        (fun a b hab => (pairRel_append ps p a b).mpr (Or.inl hab)) h
    have hedge : connectedIn (ps ++ [p]) p.1 p.2 :=
      Relation.EqvGen.rel _ _ ((pairRel_append ps p p.1 p.2).mpr (Or.inr (Or.inl ⟨rfl, rfl⟩)))
    have hre2 := connectedIn_equivalence (ps ++ [p])
    rintro (h | ⟨h1, h2⟩ | ⟨h1, h2⟩)
    · exact hmono _ _ h
    · exact hre2.trans (hmono _ _ h1) (hre2.trans hedge (hmono _ _ h2))
    · exact hre2.trans (hmono _ _ h1) (hre2.trans (hre2.symm hedge) (hmono _ _ h2))

/-! ### The loop invariant of `groups_from_pairs` -/

/--
Invariant of the grouping state relative to a set `S` of seen elements and an
equivalence `r` on them: dict keys are unique, exactly the elements of `S`
are assigned, every assigned tag is fresh-bounded, every content tag is
fresh-bounded, the list behind an assigned tag holds exactly the elements
assigned to that tag, and two elements share a tag exactly when `r` relates
them.
-/
structure InvP {α : Type} [DecidableEq α] (s : GroupsState α) (S : α → Prop)
    (r : α → α → Prop) : Prop where
  keys : (s.assign.map Prod.fst).Nodup
  dom : ∀ x, (lookupA s.assign x).isSome ↔ S x
  fresh : ∀ x g, lookupA s.assign x = some g → g < s.next
  cfresh : ∀ g, (lookupA s.contents g).isSome → g < s.next
  live : ∀ x g, lookupA s.assign x = some g →
    ∃ l, lookupA s.contents g = some l ∧ ∀ y, (y ∈ l ↔ lookupA s.assign y = some g)
  conn : ∀ x y gx gy, lookupA s.assign x = some gx → lookupA s.assign y = some gy →
    (gx = gy ↔ r x y)

theorem invP_congr {α : Type} [DecidableEq α] {s : GroupsState α} {S S' : α → Prop}
    {r r' : α → α → Prop} (h : InvP s S r) (hS : ∀ x, S x ↔ S' x)
    (hr : ∀ x y, r x y ↔ r' x y) : InvP s S' r' where
  keys := h.keys
  dom x := (h.dom x).trans (hS x)
  fresh := h.fresh
  cfresh := h.cfresh
  live := h.live
  conn x y gx gy hx hy := (h.conn x y gx gy hx hy).trans (hr x y)

theorem invP_init {α : Type} [DecidableEq α] :
    InvP (⟨[], [], 0⟩ : GroupsState α) (seenE []) (connectedIn []) where
  keys := by simp
  dom x := by simp [lookupA, seenE]
  fresh x g h := by simp [lookupA] at h
  cfresh g h := by simp [lookupA] at h
  live x g h := by simp [lookupA] at h
  conn x y gx gy hx := by simp [lookupA] at hx

theorem invP_setdefault {α : Type} [DecidableEq α] {s : GroupsState α} {S : α → Prop}
    {r : α → α → Prop} (h : InvP s S r) (hre : Equivalence r)
    (hsupp : ∀ x y, r x y → x = y ∨ (S x ∧ S y)) (a : α) :
    InvP (setdefaultStep s a).2 (fun x => S x ∨ x = a) r ∧
      lookupA (setdefaultStep s a).2.assign a = some (setdefaultStep s a).1 := by
  cases hla : lookupA s.assign a with
  | some g =>
    have h2 : (setdefaultStep s a).2 = s := by simp [setdefaultStep, hla]
    have h1 : (setdefaultStep s a).1 = g := by simp [setdefaultStep, hla]
    rw [h1, h2]
    have hSa : S a := (h.dom a).mp (by simp [hla])
    refine ⟨invP_congr h (fun x => ?_) (fun x y => Iff.rfl), hla⟩
    constructor
    · exact Or.inl
    · rintro (hx | rfl)
      · exact hx
      · exact hSa
  | none =>
    have hSa : ¬ S a := fun hSa => by
      have hs := (h.dom a).mpr hSa
      rw [hla] at hs
      simp at hs
    have hcnone : lookupA s.contents s.next = none := by
      cases hc : lookupA s.contents s.next with
      | none => rfl
      | some l => exact absurd (h.cfresh s.next (by simp [hc])) (by omega)
    have hlook : ∀ x, lookupA (s.assign ++ [(a, s.next)]) x =
        if x = a then some s.next else lookupA s.assign x := by
      intro x
      rw [lookupA_append]
      by_cases hxa : x = a
      · subst hxa; rw [hla]; simp [lookupA]
      · cases hx : lookupA s.assign x <;> simp [lookupA, hxa]
    have hclook : ∀ g, lookupA (s.contents ++ [(s.next, [a])]) g =
        if g = s.next then some [a] else lookupA s.contents g := by
      intro g
      rw [lookupA_append]
      by_cases hgn : g = s.next
      · subst hgn; rw [hcnone]; simp [lookupA]
      · cases hc : lookupA s.contents g <;> simp [lookupA, hgn]
    have h2 : (setdefaultStep s a).2 =
        ⟨s.assign ++ [(a, s.next)], s.contents ++ [(s.next, [a])], s.next + 1⟩ := by
      simp [setdefaultStep, hla]
    have h1 : (setdefaultStep s a).1 = s.next := by simp [setdefaultStep, hla]
    rw [h1, h2]
    have hanot : a ∉ s.assign.map Prod.fst := (lookupA_none_iff _ _).mp hla
    refine ⟨?_, ?_⟩
    · constructor
      · show ((s.assign ++ [(a, s.next)]).map Prod.fst).Nodup
        rw [List.map_append]
        exact List.Nodup.append h.keys (by simp)
          (by simpa [List.disjoint_singleton] using hanot)
      · intro x
        show (lookupA (s.assign ++ [(a, s.next)]) x).isSome = true ↔ S x ∨ x = a
        rw [hlook]
        by_cases hxa : x = a
        · simp [hxa]
        · rw [if_neg hxa]
          simp [hxa, h.dom x]
      · intro x g hx
        show g < s.next + 1
        rw [hlook] at hx
        by_cases hxa : x = a
        · rw [if_pos hxa] at hx
          have := Option.some.inj hx
          omega
        · rw [if_neg hxa] at hx
          have := h.fresh x g hx
          omega
      · intro g hg
        show g < s.next + 1
        rw [hclook] at hg
        by_cases hgn : g = s.next
        · omega
        · rw [if_neg hgn] at hg
          have := h.cfresh g hg
          omega
      · intro x g hx
        rw [hlook] at hx
        by_cases hxa : x = a
        · rw [if_pos hxa] at hx
          have hg : s.next = g := Option.some.inj hx
          refine ⟨[a], ?_, ?_⟩
          · show lookupA (s.contents ++ [(s.next, [a])]) g = some [a]
            rw [hclook, if_pos hg.symm]
          · intro y
            show y ∈ [a] ↔ lookupA (s.assign ++ [(a, s.next)]) y = some g
            rw [hlook]
            by_cases hya : y = a
            · simp [hya, ← hg]
            · rw [if_neg hya]
              simp only [List.mem_singleton, hya, false_iff]
              intro hc
              have := h.fresh y g hc
              omega
        · rw [if_neg hxa] at hx
          obtain ⟨l, hl, hmem⟩ := h.live x g hx
          have hgn : g ≠ s.next := by
            have := h.fresh x g hx
            omega
          refine ⟨l, ?_, ?_⟩
          · show lookupA (s.contents ++ [(s.next, [a])]) g = some l
            rw [hclook, if_neg hgn, hl]
          · intro y
            show y ∈ l ↔ lookupA (s.assign ++ [(a, s.next)]) y = some g
            rw [hlook]
            by_cases hya : y = a
            · have hal : a ∉ l := fun hal => by
                have := (hmem a).mp hal
                rw [hla] at this
                cases this
              rw [if_pos hya]
              constructor
              · intro hc
                rw [hya] at hc
                exact absurd hc hal
              · intro hc
                have := Option.some.inj hc
                exact absurd this.symm hgn
            · rw [if_neg hya]
              exact hmem y
      · intro x y gx gy hx hy
        rw [hlook] at hx hy
        by_cases hxa : x = a <;> by_cases hya : y = a
        · rw [if_pos hxa] at hx
          rw [if_pos hya] at hy
          have h1x := Option.some.inj hx
          have h1y := Option.some.inj hy
          have hxy : x = y := hxa.trans hya.symm
          exact ⟨fun _ => by rw [hxy]; exact hre.refl y, fun _ => by omega⟩
        · rw [if_pos hxa] at hx
          rw [if_neg hya] at hy
          have h1x := Option.some.inj hx
          have h2y := h.fresh y gy hy
          have hnr : ¬ r x y := by
            intro hr0
            rcases hsupp x y hr0 with heq | ⟨hSx, hSy⟩
            · exact hya (heq.symm.trans hxa)
            · exact hSa (hxa ▸ hSx)
          constructor
          · intro hc
            exact absurd hc (by omega)
          · intro hc
            exact absurd hc hnr
        · rw [if_neg hxa] at hx
          rw [if_pos hya] at hy
          have h1y := Option.some.inj hy
          have h2x := h.fresh x gx hx
          have hnr : ¬ r x y := by
            intro hr0
            rcases hsupp x y hr0 with heq | ⟨hSx, hSy⟩
            · exact hxa (heq.trans hya)
            · exact hSa (hya ▸ hSy)
          constructor
          · intro hc
            exact absurd hc (by omega)
          · intro hc
            exact absurd hc hnr
        · rw [if_neg hxa] at hx
          rw [if_neg hya] at hy
          exact h.conn x y gx gy hx hy
    · show lookupA (s.assign ++ [(a, s.next)]) a = some s.next
      rw [hlook]
      simp

theorem invP_mergeStep {α : Type} [DecidableEq α] {s : GroupsState α} {S : α → Prop}
    {r : α → α → Prop} (h : InvP s S r) (hre : Equivalence r)
    (hsupp : ∀ x y, r x y → x = y ∨ (S x ∧ S y)) (a b : α) (ga : Nat)
    (ha : lookupA s.assign a = some ga) :
    InvP (mergeStep s ga b) (fun x => S x ∨ x = b) (joinRel r a b) := by
  have hSa : S a := (h.dom a).mp (by simp [ha])
  cases hlb : lookupA s.assign b with
  | some gb =>
    have hSb : S b := (h.dom b).mp (by simp [hlb])
    by_cases hgb : gb = ga
    · have hstate : mergeStep s ga b = s := by simp [mergeStep, hlb, hgb]
      rw [hstate]
      have hab : r a b := (h.conn a b ga gb ha hlb).mp hgb.symm
      refine invP_congr h (fun x => ?_) (fun x y => (joinRel_eq_of_rel_ab hre hab x y).symm)
      constructor
      · exact Or.inl
      · rintro (hx | rfl)
        · exact hx
        · exact hSb
    · obtain ⟨la, hca, hmemla⟩ := h.live a ga ha
      obtain ⟨lb, hcb, hmemlb⟩ := h.live b gb hlb
      have hstate : mergeStep s ga b =
          ⟨lb.foldl (fun m x => updA m x ga) s.assign,
            updA s.contents ga (la ++ lb), s.next⟩ := by
        simp [mergeStep, hlb, hgb, hca, hcb]
      rw [hstate]
      have hgalt : ga < s.next := h.fresh a ga ha
      have hgblt : gb < s.next := h.fresh b gb hlb
      have hsub : ∀ x ∈ lb, x ∈ s.assign.map Prod.fst := fun x hx =>
        (lookupA_isSome_iff _ _).mp (by simp [(hmemlb x).mp hx])
      have hlook : ∀ y, lookupA (lb.foldl (fun m x => updA m x ga) s.assign) y =
          if lookupA s.assign y = some gb then some ga else lookupA s.assign y := by
        intro y
        rw [foldl_updA_const_lookup]
        by_cases hy : y ∈ lb
        · rw [if_pos hy, if_pos ((hmemlb y).mp hy)]
        · rw [if_neg hy, if_neg (fun hc => hy ((hmemlb y).mpr hc))]
      have hclook : ∀ g, lookupA (updA s.contents ga (la ++ lb)) g =
          if g = ga then some (la ++ lb) else lookupA s.contents g := by
        intro g
        by_cases hg : g = ga
        · rw [if_pos hg, hg, lookupA_updA_self]
        · rw [if_neg hg, lookupA_updA_ne _ _ _ _ hg]
      constructor
      · show ((lb.foldl (fun m x => updA m x ga) s.assign).map Prod.fst).Nodup
        rw [keys_foldl_updA_of_mem lb s.assign ga hsub]
        exact h.keys
      · intro x
        show (lookupA (lb.foldl (fun m x => updA m x ga) s.assign) x).isSome = true
          ↔ S x ∨ x = b
        rw [hlook]
        by_cases hxg : lookupA s.assign x = some gb
        · rw [if_pos hxg]
          simp only [Option.isSome_some, true_iff]
          exact Or.inl ((h.dom x).mp (by simp [hxg]))
        · rw [if_neg hxg, h.dom x]
          constructor
          · exact Or.inl
          · rintro (hx | rfl)
            · exact hx
            · exact hSb
      · intro x g hx
        show g < s.next
        rw [hlook] at hx
        by_cases hxg : lookupA s.assign x = some gb
        · rw [if_pos hxg] at hx
          have := Option.some.inj hx
          omega
        · rw [if_neg hxg] at hx
          exact h.fresh x g hx
      · intro g hg
        show g < s.next
        rw [hclook] at hg
        by_cases hgga : g = ga
        · omega
        · rw [if_neg hgga] at hg
          exact h.cfresh g hg
      · intro x g hx
        rw [hlook] at hx
        by_cases hgga : g = ga
        · refine ⟨la ++ lb, ?_, ?_⟩
          · show lookupA (updA s.contents ga (la ++ lb)) g = some (la ++ lb)
            rw [hclook, if_pos hgga]
          · intro y
            show y ∈ la ++ lb
              ↔ lookupA (lb.foldl (fun m x => updA m x ga) s.assign) y = some g
            rw [hlook, hgga]
            constructor
            · intro hy
              rcases List.mem_append.mp hy with hy | hy
              · rw [(hmemla y).mp hy]
                simp
              · rw [if_pos ((hmemlb y).mp hy)]
            · intro hy
              by_cases hygb : lookupA s.assign y = some gb
              · exact List.mem_append.mpr (Or.inr ((hmemlb y).mpr hygb))
              · rw [if_neg hygb] at hy
                exact List.mem_append.mpr (Or.inl ((hmemla y).mpr hy))
        · have hx0 : lookupA s.assign x = some g := by
            by_cases hxg : lookupA s.assign x = some gb
            · rw [if_pos hxg] at hx
              exact absurd (Option.some.inj hx).symm hgga
            · rw [if_neg hxg] at hx
              exact hx
          have hggb : g ≠ gb := by
            intro heq
            have hxg : lookupA s.assign x = some gb := heq ▸ hx0
            rw [if_pos hxg] at hx
            exact hgga (Option.some.inj hx).symm
          obtain ⟨l, hcl, hmem⟩ := h.live x g hx0
          refine ⟨l, ?_, ?_⟩
          · show lookupA (updA s.contents ga (la ++ lb)) g = some l
            rw [hclook, if_neg hgga, hcl]
          · intro y
            show y ∈ l ↔ lookupA (lb.foldl (fun m x => updA m x ga) s.assign) y = some g
            rw [hlook]
            by_cases hygb : lookupA s.assign y = some gb
            · rw [if_pos hygb]
              constructor
              · intro hy
                have hyg := (hmem y).mp hy
                rw [hygb] at hyg
                exact absurd (Option.some.inj hyg).symm hggb
              · intro hy
                exact absurd (Option.some.inj hy).symm hgga
            · rw [if_neg hygb]
              exact hmem y
      · intro x y gx gy hx hy
        show gx = gy ↔ joinRel r a b x y
        rw [hlook] at hx hy
        have key : ∀ z gz,
            (if lookupA s.assign z = some gb then some ga else lookupA s.assign z) = some gz →
            ∃ gz0, lookupA s.assign z = some gz0 ∧ gz = (if gz0 = gb then ga else gz0) := by
          intro z gz hz
          by_cases hzg : lookupA s.assign z = some gb
          · rw [if_pos hzg] at hz
            exact ⟨gb, hzg, by rw [if_pos rfl]; exact (Option.some.inj hz).symm⟩
          · rw [if_neg hzg] at hz
            refine ⟨gz, hz, ?_⟩
            rw [if_neg]
            intro hc
            rw [hc] at hz
            exact hzg hz
        obtain ⟨gx0, hx0, hgx⟩ := key x gx hx
        obtain ⟨gy0, hy0, hgy⟩ := key y gy hy
        have hxa2 : r x a ↔ gx0 = ga := (h.conn x a gx0 ga hx0 ha).symm
        have hxb2 : r x b ↔ gx0 = gb := (h.conn x b gx0 gb hx0 hlb).symm
        have hay2 : r a y ↔ ga = gy0 := (h.conn a y ga gy0 ha hy0).symm
        have hby2 : r b y ↔ gb = gy0 := (h.conn b y gb gy0 hlb hy0).symm
        have hxy2 : r x y ↔ gx0 = gy0 := (h.conn x y gx0 gy0 hx0 hy0).symm
        rw [hgx, hgy]
        simp only [joinRel, hxy2, hxa2, hxb2, hay2, hby2]
        split_ifs <;> omega
  | none =>
    have hSb : ¬ S b := fun hSb => by
      have hs := (h.dom b).mpr hSb
      rw [hlb] at hs
      simp at hs
    have hnab : a ≠ b := fun hc => hSb (hc ▸ hSa)
    obtain ⟨la, hca, hmemla⟩ := h.live a ga ha
    have hstate : mergeStep s ga b =
        ⟨updA s.assign b ga, updA s.contents ga (la ++ [b]), s.next⟩ := by
      simp [mergeStep, hlb, hca]
    rw [hstate]
    have hgalt : ga < s.next := h.fresh a ga ha
    have hlook : ∀ y, lookupA (updA s.assign b ga) y =
        if y = b then some ga else lookupA s.assign y := by
      intro y
      by_cases hyb : y = b
      · rw [if_pos hyb, hyb, lookupA_updA_self]
      · rw [if_neg hyb, lookupA_updA_ne _ _ _ _ hyb]
    have hclook : ∀ g, lookupA (updA s.contents ga (la ++ [b])) g =
        if g = ga then some (la ++ [b]) else lookupA s.contents g := by
      intro g
      by_cases hg : g = ga
      · rw [if_pos hg, hg, lookupA_updA_self]
      · rw [if_neg hg, lookupA_updA_ne _ _ _ _ hg]
    have hbnot : b ∉ s.assign.map Prod.fst := (lookupA_none_iff _ _).mp hlb
    have hbla : b ∉ la := fun hc => by
      have := (hmemla b).mp hc
      rw [hlb] at this
      cases this
    constructor
    · show ((updA s.assign b ga).map Prod.fst).Nodup
      rw [keys_updA, if_neg hbnot]
      exact List.Nodup.append h.keys (by simp)
        (by simpa [List.disjoint_singleton] using hbnot)
    · intro x
      show (lookupA (updA s.assign b ga) x).isSome = true ↔ S x ∨ x = b
      rw [hlook]
      by_cases hxb : x = b
      · simp [hxb]
      · rw [if_neg hxb, h.dom x]
        simp [hxb]
    · intro x g hx
      show g < s.next
      rw [hlook] at hx
      by_cases hxb : x = b
      · rw [if_pos hxb] at hx
        have := Option.some.inj hx
        omega
      · rw [if_neg hxb] at hx
        exact h.fresh x g hx
    · intro g hg
      show g < s.next
      rw [hclook] at hg
      by_cases hgga : g = ga
      · omega
      · rw [if_neg hgga] at hg
        exact h.cfresh g hg
    · intro x g hx
      rw [hlook] at hx
      by_cases hgga : g = ga
      · refine ⟨la ++ [b], ?_, ?_⟩
        · show lookupA (updA s.contents ga (la ++ [b])) g = some (la ++ [b])
          rw [hclook, if_pos hgga]
        · intro y
          show y ∈ la ++ [b] ↔ lookupA (updA s.assign b ga) y = some g
          rw [hlook, hgga]
          by_cases hyb : y = b
          · simp [hyb]
          · rw [if_neg hyb]
            simp only [List.mem_append, List.mem_singleton, hyb, or_false]
            exact hmemla y
      · have hx0 : lookupA s.assign x = some g := by
          by_cases hxb : x = b
          · rw [if_pos hxb] at hx
            exact absurd (Option.some.inj hx).symm hgga
          · rw [if_neg hxb] at hx
            exact hx
        obtain ⟨l, hcl, hmem⟩ := h.live x g hx0
        have hbl : b ∉ l := fun hc => by
          have := (hmem b).mp hc
          rw [hlb] at this
          cases this
        refine ⟨l, ?_, ?_⟩
        · show lookupA (updA s.contents ga (la ++ [b])) g = some l
          rw [hclook, if_neg hgga, hcl]
        · intro y
          show y ∈ l ↔ lookupA (updA s.assign b ga) y = some g
          rw [hlook]
          by_cases hyb : y = b
          · rw [if_pos hyb]
            constructor
            · intro hy
              exact absurd (hyb ▸ hy) hbl
            · intro hy
              exact absurd (Option.some.inj hy).symm hgga
          · rw [if_neg hyb]
            exact hmem y
    · intro x y gx gy hx hy
      show gx = gy ↔ joinRel r a b x y
      rw [hlook] at hx hy
      by_cases hxb : x = b <;> by_cases hyb : y = b
      · rw [if_pos hxb] at hx
        rw [if_pos hyb] at hy
        have hgx := Option.some.inj hx
        have hgy := Option.some.inj hy
        refine ⟨fun _ => ?_, fun _ => by omega⟩
        rw [hxb, hyb]
        exact Or.inl (hre.refl b)
      · rw [if_pos hxb] at hx
        rw [if_neg hyb] at hy
        have hgx := Option.some.inj hx
        constructor
        · intro hc
          refine Or.inr (Or.inr ⟨by rw [hxb]; exact hre.refl b, ?_⟩)
          exact (h.conn a y ga gy ha hy).mp (by omega)
        · rintro (hr1 | ⟨hr1, hr2⟩ | ⟨hr1, hr2⟩)
          · rcases hsupp x y hr1 with heq | ⟨hSx, _⟩
            · exact absurd (heq.symm.trans hxb) hyb
            · exact absurd (hxb ▸ hSx) hSb
          · rcases hsupp x a hr1 with heq | ⟨hSx, _⟩
            · exact absurd (hxb.symm.trans heq).symm hnab
            · exact absurd (hxb ▸ hSx) hSb
          · have := (h.conn a y ga gy ha hy).mpr hr2
            omega
      · rw [if_neg hxb] at hx
        rw [if_pos hyb] at hy
        have hgy := Option.some.inj hy
        constructor
        · intro hc
          refine Or.inr (Or.inl ⟨?_, by rw [hyb]; exact hre.refl b⟩)
          exact (h.conn x a gx ga hx ha).mp (by omega)
        · rintro (hr1 | ⟨hr1, hr2⟩ | ⟨hr1, hr2⟩)
          · rcases hsupp x y hr1 with heq | ⟨_, hSy⟩
            · exact absurd (heq.trans hyb) hxb
            · exact absurd (hyb ▸ hSy) hSb
          · have := (h.conn x a gx ga hx ha).mpr hr1
            omega
          · rcases hsupp x b hr1 with heq | ⟨_, hSb2⟩
            · exact absurd heq hxb
            · exact absurd hSb2 hSb
      · rw [if_neg hxb] at hx
        rw [if_neg hyb] at hy
        constructor
        · intro hc
          exact Or.inl ((h.conn x y gx gy hx hy).mp hc)
        · rintro (hr1 | ⟨hr1, hr2⟩ | ⟨hr1, hr2⟩)
          · exact (h.conn x y gx gy hx hy).mpr hr1
          · rcases hsupp b y hr2 with heq | ⟨hSb2, _⟩
            · exact absurd heq.symm hyb
            · exact absurd hSb2 hSb
          · rcases hsupp x b hr1 with heq | ⟨_, hSb2⟩
            · exact absurd heq hxb
            · exact absurd hSb2 hSb

theorem invP_groupsStep {α : Type} [DecidableEq α] {s : GroupsState α} {ps : List (α × α)}
    (h : InvP s (seenE ps) (connectedIn ps)) (p : α × α) :
    InvP (groupsStep s p) (seenE (ps ++ [p])) (connectedIn (ps ++ [p])) := by
  have hre := connectedIn_equivalence ps
  have hsupp := connectedIn_support ps
  obtain ⟨h1, ha⟩ := invP_setdefault h hre hsupp p.1
  have hsupp1 : ∀ x y, connectedIn ps x y →
      x = y ∨ ((seenE ps x ∨ x = p.1) ∧ (seenE ps y ∨ y = p.1)) := by
    intro x y hxy
    rcases hsupp x y hxy with heq | ⟨hx, hy⟩
    · exact Or.inl heq
    · exact Or.inr ⟨Or.inl hx, Or.inl hy⟩
  have h2 := invP_mergeStep h1 hre hsupp1 p.1 p.2 (setdefaultStep s p.1).1 ha
  refine invP_congr h2 (fun x => ?_) (fun x y => (connectedIn_append ps p x y).symm)
  rw [seenE_append]
  constructor
  · rintro ((hx | rfl) | rfl)
    · exact Or.inl hx
    · exact Or.inr (Or.inl rfl)
    · exact Or.inr (Or.inr rfl)
  · rintro (hx | rfl | rfl)
    · exact Or.inl (Or.inl hx)
    · exact Or.inl (Or.inr rfl)
    · exact Or.inr rfl

theorem invP_foldl {α : Type} [DecidableEq α] (qs : List (α × α)) (ps : List (α × α))
    (s : GroupsState α) (h : InvP s (seenE ps) (connectedIn ps)) :
    InvP (qs.foldl groupsStep s) (seenE (ps ++ qs)) (connectedIn (ps ++ qs)) := by
  induction qs generalizing ps s with
  | nil => simpa using h
  | cons q qs ih =>
    have h1 := invP_groupsStep h q
    have h2 := ih (ps ++ [q]) _ h1
    simpa using h2

theorem invP_run {α : Type} [DecidableEq α] (ps : List (α × α)) :
    InvP (ps.foldl groupsStep ⟨[], [], 0⟩) (seenE ps) (connectedIn ps) := by
  have h := invP_foldl ps [] (⟨[], [], 0⟩ : GroupsState α) invP_init
  simpa using h

/-- Main structural theorem: the output of `groups_from_pairs` is exactly the
family of connected components of the pair graph. -/
theorem groups_from_pairs_isComponents {α : Type} [DecidableEq α] (ps : List (α × α)) :
    isComponents ps (groups_from_pairs ps) := by
  have h := invP_run ps
  set s := ps.foldl groupsStep (⟨[], [], 0⟩ : GroupsState α) with hs
  have houtput : groups_from_pairs ps = s.assign.filterMap fun e =>
      let grp := (lookupA s.contents e.2).getD []
      if grp.head? = some e.1 then some grp else none := rfl
  -- membership of a group in the output
  have hmemG : ∀ g, g ∈ groups_from_pairs ps →
      ∃ t l, g = l ∧ lookupA s.contents t = some l ∧
        (∀ y, y ∈ l ↔ lookupA s.assign y = some t) ∧ l ≠ [] := by
    intro g hg
    rw [houtput] at hg
    obtain ⟨e, he, hfe⟩ := List.mem_filterMap.mp hg
    by_cases hcond : ((lookupA s.contents e.2).getD []).head? = some e.1
    · have hge : g = (lookupA s.contents e.2).getD [] := by
        simp only [if_pos hcond] at hfe
        exact (Option.some.inj hfe).symm
      have hee : lookupA s.assign e.1 = some e.2 :=
        lookupA_eq_of_mem _ _ _ h.keys he
      obtain ⟨l, hl, hmem⟩ := h.live e.1 e.2 hee
      refine ⟨e.2, l, ?_, hl, hmem, ?_⟩
      · rw [hge, hl]
        rfl
      · intro hnil
        rw [hl] at hcond
        simp only [Option.getD_some, hnil] at hcond
        cases hcond
    · simp only [if_neg hcond] at hfe
      cases hfe
  -- every assigned element appears in some output group
  have hcover : ∀ x t, lookupA s.assign x = some t →
      ∃ g ∈ groups_from_pairs ps, x ∈ g := by
    intro x t hx
    obtain ⟨l, hl, hmem⟩ := h.live x t hx
    have hxl : x ∈ l := (hmem x).mpr hx
    have hlne : l ≠ [] := fun hc => by rw [hc] at hxl; cases hxl
    have hhead : l.head hlne ∈ l := List.head_mem hlne
    have hht : lookupA s.assign (l.head hlne) = some t := (hmem _).mp hhead
    have hentry : (l.head hlne, t) ∈ s.assign := mem_of_lookupA_eq _ _ _ hht
    refine ⟨l, ?_, hxl⟩
    rw [houtput]
    refine List.mem_filterMap.mpr ⟨(l.head hlne, t), hentry, ?_⟩
    simp only [hl, Option.getD_some]
    rw [if_pos (List.head?_eq_head hlne)]
  refine ⟨?_, ?_, ?_, ?_⟩
  · intro x
    constructor
    · intro hx
      obtain ⟨t, ht⟩ := Option.isSome_iff_exists.mp ((h.dom x).mpr hx)
      exact hcover x t ht
    · rintro ⟨g, hg, hxg⟩
      obtain ⟨t, l, rfl, hl, hmem, hlne⟩ := hmemG g hg
      exact (h.dom x).mp (by simp [(hmem x).mp hxg])
  · intro g hg x hxg y
    obtain ⟨t, l, rfl, hl, hmem, hlne⟩ := hmemG g hg
    have hxt : lookupA s.assign x = some t := (hmem x).mp hxg
    constructor
    · intro hy
      have hyt : lookupA s.assign y = some t := (hmem y).mp hy
      refine ⟨(h.conn x y t t hxt hyt).mp rfl, (h.dom y).mp (by simp [hyt])⟩
    · rintro ⟨hconn, hseen⟩
      obtain ⟨ty, hty⟩ := Option.isSome_iff_exists.mp ((h.dom y).mpr hseen)
      have : t = ty := (h.conn x y t ty hxt hty).mpr hconn
      exact (hmem y).mpr (this ▸ hty)
  · intro g hg
    obtain ⟨t, l, rfl, hl, hmem, hlne⟩ := hmemG g hg
    exact hlne
  · rw [houtput]
    have hpw : List.Pairwise (fun e f : α × Nat => e.1 ≠ f.1) s.assign := by
      have := h.keys
      rw [List.Nodup, List.pairwise_map] at this
      exact this
    have hpw2 : List.Pairwise (fun e f : α × Nat =>
        ∀ ge gf, ((lookupA s.contents e.2).getD []).head? = some e.1 →
          ((lookupA s.contents f.2).getD []).head? = some f.1 →
          ge = (lookupA s.contents e.2).getD [] → gf = (lookupA s.contents f.2).getD [] →
          ∀ x, x ∈ ge → x ∉ gf) s.assign := by
      refine List.Pairwise.imp_of_mem ?_ hpw
      intro e f he hf hne ge gf hheade hheadf hge hgf x hxe hxf
      have hee : lookupA s.assign e.1 = some e.2 :=
        lookupA_eq_of_mem _ _ _ h.keys he
      have hff : lookupA s.assign f.1 = some f.2 :=
        lookupA_eq_of_mem _ _ _ h.keys hf
      obtain ⟨l1, hle, hmeme⟩ := h.live e.1 e.2 hee
      obtain ⟨l2, hlf, hmemf⟩ := h.live f.1 f.2 hff
      rw [hle, Option.getD_some] at hge hheade
      rw [hlf, Option.getD_some] at hgf hheadf
      have hxte : lookupA s.assign x = some e.2 := (hmeme x).mp (hge ▸ hxe)
      have hxtf : lookupA s.assign x = some f.2 := (hmemf x).mp (hgf ▸ hxf)
      have htef : e.2 = f.2 := by
        rw [hxte] at hxtf
        exact Option.some.inj hxtf
      have hl12 : l1 = l2 := by
        rw [← htef] at hlf
        rw [hle] at hlf
        exact Option.some.inj hlf
      rw [hl12] at hheade
      rw [hheade] at hheadf
      exact hne (Option.some.inj hheadf)
    refine List.Pairwise.filterMap _ ?_ hpw2
    intro e f hef ge hge gf hgf
    simp only [Option.mem_def] at hge hgf
    by_cases hce : ((lookupA s.contents e.2).getD []).head? = some e.1
    · by_cases hcf : ((lookupA s.contents f.2).getD []).head? = some f.1
      · rw [if_pos hce] at hge
        rw [if_pos hcf] at hgf
        exact hef ge gf hce hcf (Option.some.inj hge).symm (Option.some.inj hgf).symm
      · rw [if_neg hcf] at hgf
        cases hgf
    · rw [if_neg hce] at hge
      cases hge

theorem pairRel_congr {α : Type} (ps qs : List (α × α)) (hpq : ∀ p, p ∈ ps ↔ p ∈ qs)
    (x y : α) : pairRel ps x y ↔ pairRel qs x y := by
  unfold pairRel
  rw [hpq (x, y), hpq (y, x)]

theorem seenE_congr {α : Type} (ps qs : List (α × α)) (hpq : ∀ p, p ∈ ps ↔ p ∈ qs)
    (x : α) : seenE ps x ↔ seenE qs x := by
  unfold seenE
  constructor
  · rintro ⟨p, hp, hx⟩
    exact ⟨p, (hpq p).mp hp, hx⟩
  · rintro ⟨p, hp, hx⟩
    exact ⟨p, (hpq p).mpr hp, hx⟩

theorem connectedIn_congr {α : Type} (ps qs : List (α × α))
    (hpq : ∀ p, p ∈ ps ↔ p ∈ qs) (x y : α) :
    connectedIn ps x y ↔ connectedIn qs x y := by
  constructor
  · exact Relation.EqvGen.mono fun u v h => (pairRel_congr ps qs hpq u v).mp h
  · exact Relation.EqvGen.mono fun u v h => (pairRel_congr ps qs hpq u v).mpr h

/-- Membership-equal pair lists produce the same groups as sets of sets. -/
theorem groups_from_pairs_mem_invariant {α : Type} [DecidableEq α]
    (ps qs : List (α × α)) (hpq : ∀ p, p ∈ ps ↔ p ∈ qs)
    (g : List α) (hg : g ∈ groups_from_pairs ps) :
    ∃ g2 ∈ groups_from_pairs qs, ∀ x, x ∈ g ↔ x ∈ g2 := by
  obtain ⟨hPcov, hPcomp, hPne, hPdis⟩ := groups_from_pairs_isComponents ps
  obtain ⟨hQcov, hQcomp, hQne, hQdis⟩ := groups_from_pairs_isComponents qs
  have hgne := hPne g hg
  have hx : g.head hgne ∈ g := List.head_mem hgne
  have hseenP : seenE ps (g.head hgne) := (hPcov _).mpr ⟨g, hg, hx⟩
  have hseenQ : seenE qs (g.head hgne) := (seenE_congr ps qs hpq _).mp hseenP
  obtain ⟨g2, hg2, hxg2⟩ := (hQcov _).mp hseenQ
  refine ⟨g2, hg2, fun z => ?_⟩
  rw [hPcomp g hg _ hx z, hQcomp g2 hg2 _ hxg2 z,
    connectedIn_congr ps qs hpq, seenE_congr ps qs hpq]

/--
**C4.**  For every finite list of pairs, `groups_from_pairs` yields, as a set
of sets, exactly the connected components of the undirected graph whose edges
are the pairs; the result is invariant (as a set of sets) under reordering of
the pair list and under duplicate pairs; and the pairs (a,b), (b,c) produce
the single group of a, b and c rather than two groups.
-/
theorem groups_from_pairs_connected_components {α : Type} [DecidableEq α] :
    (∀ ps : List (α × α), isComponents ps (groups_from_pairs ps)) ∧
    (∀ ps qs : List (α × α), (∀ p, p ∈ ps ↔ p ∈ qs) →
      ∀ g ∈ groups_from_pairs ps, ∃ g2 ∈ groups_from_pairs qs, ∀ x, x ∈ g ↔ x ∈ g2) ∧
    (∀ a b c : α, a ≠ b → a ≠ c → b ≠ c →
      groups_from_pairs [(a, b), (b, c)] = [[a, b, c]]) := by
  refine ⟨groups_from_pairs_isComponents, ?_, ?_⟩
  · intro ps qs hpq g hg
    exact groups_from_pairs_mem_invariant ps qs hpq g hg
  · intro a b c hab hac hbc
    have hba : b ≠ a := hab.symm
    have hca : c ≠ a := hac.symm
    have hcb : c ≠ b := hbc.symm
    simp [groups_from_pairs, groupsStep, setdefaultStep, mergeStep, lookupA, updA,
      hab, hac, hbc, hba, hca, hcb]

/-- Witness for C4 at concrete inputs. -/
theorem groups_from_pairs_connected_components_witness :
    (∃ g ∈ groups_from_pairs [((1 : Nat), 2), (2, 3)], 1 ∈ g) ∧
    (∃ g2 ∈ groups_from_pairs [((2 : Nat), 3), (1, 2), (1, 2)], ∀ x, x ∈ [1, 2, 3] ↔ x ∈ g2) ∧
    groups_from_pairs [((1 : Nat), 2), (2, 3)] = [[1, 2, 3]] := by
  have h := groups_from_pairs_connected_components (α := Nat)
  refine ⟨?_, ?_, h.2.2 1 2 3 (by decide) (by decide) (by decide)⟩
  · exact ((h.1 [(1, 2), (2, 3)]).1 1).mp (by decide)
  · refine h.2.1 [(1, 2), (2, 3)] [(2, 3), (1, 2), (1, 2)] ?_ [1, 2, 3] (by decide)
    intro p
    simp only [List.mem_cons, List.not_mem_nil, or_false]
    tauto

/--
**C2.**  For every string input, `generic_equivalent_for_bnf_code` returns
none when the length is not 15, and returns none when the code matches an
exclusion pattern; the matching is anchored at the start, so a match is
insensitive to anything after the matched prefix.  In both cases the result
is the silent `none`, not an error: the function is total.
-/
theorem C2_generic_equivalent_silent_exclusion (c : String) (pat : List PatChar)
    (cs ds : List Char) :
    (c.length ≠ 15 → generic_equivalent_for_bnf_code c = none) ∧
    (exclusionsMatch c = true → generic_equivalent_for_bnf_code c = none) ∧
    (patMatch pat cs = true → patMatch pat (cs ++ ds) = true) := by
  refine ⟨?_, ?_, ?_⟩
  · intro h
    simp [generic_equivalent_for_bnf_code, h]
  · intro h
    simp [generic_equivalent_for_bnf_code, h]
  · induction pat generalizing cs with
    | nil => intro _; rfl
    | cons t ts ih =>
      intro hm
      cases cs with
      | nil => cases t <;> simp [patMatch] at hm
      | cons c0 cs0 =>
        cases t with
        | lit l =>
          simp only [patMatch, Bool.and_eq_true] at hm
          simp only [List.cons_append, patMatch, Bool.and_eq_true]
          exact ⟨hm.1, ih cs0 hm.2⟩
        | any =>
          simp only [patMatch, Bool.and_eq_true] at hm
          simp only [List.cons_append, patMatch, Bool.and_eq_true]
          exact ⟨hm.1, ih cs0 hm.2⟩

/-- Witness for C2 at concrete inputs. -/
theorem C2_witness :
    generic_equivalent_for_bnf_code "short" = none ∧
    generic_equivalent_for_bnf_code "0302000C0AAABBE" = none ∧
    patMatch (patOf "0904010H0") ("0904010H0AAABAB".toList ++ ['X']) = true := by
  refine ⟨?_, ?_, ?_⟩
  · exact (C2_generic_equivalent_silent_exclusion "short" [] [] []).1 (by decide)
  · exact (C2_generic_equivalent_silent_exclusion "0302000C0AAABBE" [] [] []).2.1 (by decide)
  · exact (C2_generic_equivalent_silent_exclusion "" (patOf "0904010H0")
      "0904010H0AAABAB".toList ['X']).2.2 (by decide)

/--
**C3** counterexample: the code "0302000C0AAABBE" has suffix "BE" (not "A0"),
yet its generic equivalent is none (it matches an exclusion pattern), so the
unconditional formula of the claim fails on it.
-/
theorem C3_counterexample :
    stringSlice "0302000C0AAABBE" 13 15 ≠ "A0" ∧
    generic_equivalent_for_bnf_code "0302000C0AAABBE" ≠
      some (stringSlice "0302000C0AAABBE" 0 9 ++ "AA" ++ stringSlice "0302000C0AAABBE" 13 15
        ++ stringSlice "0302000C0AAABBE" 13 15) := by
  decide

/--
**C3** (amended): for every 15-character code that does not match an
exclusion pattern, if the suffix differs from "A0" the result is
`prefix + "AA" + suffix + suffix`.
-/
theorem C3_generic_equivalent_formula (c : String) (h15 : c.length = 15)
    (hex : exclusionsMatch c = false) (hsuf : stringSlice c 13 15 ≠ "A0") :
    generic_equivalent_for_bnf_code c =
      some (stringSlice c 0 9 ++ "AA" ++ stringSlice c 13 15 ++ stringSlice c 13 15) := by
  unfold generic_equivalent_for_bnf_code
  rw [if_neg (by omega), if_neg (by simp [hex]), if_pos (Or.inl hsuf)]

/-- Witness for the amended C3 at a concrete input. -/
theorem C3_generic_equivalent_formula_witness :
    generic_equivalent_for_bnf_code "040702040AAACAC" =
      some (stringSlice "040702040AAACAC" 0 9 ++ "AA" ++ stringSlice "040702040AAACAC" 13 15
        ++ stringSlice "040702040AAACAC" 13 15) :=
  C3_generic_equivalent_formula "040702040AAACAC" (by decide) (by decide) (by decide)

/--
**C1.**  End-to-end: the two tramadol codes together with the single accepted
swap row produce exactly one substitution set, with id "040702040AAACAC",
sorted presentations, and formulation swaps "Cap / Tab" (whatever the name
resolver returns).
-/
theorem C1_end_to_end (resolver : String → Option String) :
    ∃ n, get_substitution_sets_from_bnf_codes ["040702040AAACAC", "040702040AAAHAH"]
      [⟨"040702040AAACAC", "040702040AAAHAH", "Tab", "Cap", "Y"⟩] resolver =
      Except.ok [⟨"040702040AAACAC", ["040702040AAACAC", "040702040AAAHAH"], n,
        some "Cap / Tab"⟩] :=
  ⟨(lookupA (get_names_for_bnf_codes resolver ["040702040AAACAC"])
      "040702040AAACAC").getD "unknown", rfl⟩

/--
**C8** counterexample: on this input the last pair joins the group of 1
(two elements) with the group of 3 (three elements); the source appends the
second element's larger group onto the first element's smaller group, while
the claimed smaller-into-larger policy would produce the opposite nesting,
observable in the emitted group lists.
-/
theorem C8_counterexample :
    groups_from_pairs [((3 : Nat), 4), (4, 5), (1, 2), (1, 3)] = [[1, 2, 3, 4, 5]] ∧
    groupsFromPairsSmallerIntoLarger [((3 : Nat), 4), (4, 5), (1, 2), (1, 3)]
      = [[3, 4, 5, 1, 2]] ∧
    ([[1, 2, 3, 4, 5]] : List (List Nat)) ≠ [[3, 4, 5, 1, 2]] := by
  decide

/--
**C8** (amended): for every processed pair (a, b) whose elements currently
belong to two different groups, the second element's group is appended to the
first element's group (whatever their relative sizes), and every member of
the second group has its mapping entry re-pointed to the first group.
-/
theorem C8_merge_into_first_group {α : Type} [DecidableEq α] (s : GroupsState α)
    (a b : α) (ga gb : Nat) (la lb : List α) (m : α)
    (ha : lookupA s.assign a = some ga) (hb : lookupA s.assign b = some gb)
    (hne : gb ≠ ga) (hca : lookupA s.contents ga = some la)
    (hcb : lookupA s.contents gb = some lb) (hm : m ∈ lb) :
    lookupA (groupsStep s (a, b)).contents ga = some (la ++ lb) ∧
    lookupA (groupsStep s (a, b)).assign m = some ga := by
  have hsd : setdefaultStep s a = (ga, s) := by simp [setdefaultStep, ha]
  have hstep : groupsStep s (a, b) = mergeStep s ga b := by
    unfold groupsStep
    dsimp only
    rw [hsd]
  rw [hstep]
  have hmerge : mergeStep s ga b =
      ⟨lb.foldl (fun m x => updA m x ga) s.assign,
        updA s.contents ga (la ++ lb), s.next⟩ := by
    simp [mergeStep, hb, hne, hca, hcb]
  rw [hmerge]
  constructor
  · show lookupA (updA s.contents ga (la ++ lb)) ga = some (la ++ lb)
    exact lookupA_updA_self _ _ _
  · show lookupA (lb.foldl (fun m x => updA m x ga) s.assign) m = some ga
    rw [foldl_updA_const_lookup, if_pos hm]

/-- Witness for the amended C8 at a concrete state. -/
theorem C8_merge_into_first_group_witness :
    lookupA (groupsStep (⟨[(1, 0), (2, 1)], [(0, [1]), (1, [2])], 2⟩ : GroupsState Nat)
      (1, 2)).contents 0 = some ([1] ++ [2]) ∧
    lookupA (groupsStep (⟨[(1, 0), (2, 1)], [(0, [1]), (1, [2])], 2⟩ : GroupsState Nat)
      (1, 2)).assign 2 = some 0 :=
  C8_merge_into_first_group _ 1 2 0 1 [1] [2] 2 (by decide) (by decide) (by decide)
    (by decide) (by decide) (by decide)

/-! ### The string order behind `sorted` -/

theorem charListLe_iff_not_lex (cs ds : List Char) :
    charListLe cs ds = true ↔ ¬ List.Lex (· < ·) ds cs := by
  induction cs generalizing ds with
  | nil =>
    constructor
    · intro _ h
      cases h
    · intro _
      rfl
  | cons c cs ih =>
    cases ds with
    | nil =>
      simp only [charListLe]
      constructor
      · intro h
        exact absurd h (by simp)
      · intro h
        exact absurd List.Lex.nil h
    | cons d ds2 =>
      simp only [charListLe]
      by_cases hcd : c = d
      · subst hcd
        rw [if_pos rfl, ih ds2]
        constructor
        · intro h hlt
          cases hlt with
          | cons hl => exact h hl
          | rel hl => exact absurd hl (lt_irrefl c)
        · intro h hlt
          exact h (List.Lex.cons hlt)
      · rw [if_neg hcd]
        simp only [decide_eq_true_eq]
        constructor
        · intro hlt hdc
          cases hdc with
          | cons hl => exact hcd rfl
          | rel hl => exact absurd hlt (asymm hl)
        · intro h
          rcases lt_trichotomy c d with hl | he | hg
          · exact hl
          · exact absurd he hcd
          · exact absurd (List.Lex.rel hg) h

theorem strLe_iff (a b : String) : strLe a b = true ↔ a ≤ b := by
  rw [String.le_iff_toList_le, ← not_lt]
  exact charListLe_iff_not_lex a.toList b.toList

theorem strLe_total (a b : String) : strLe a b = true ∨ strLe b a = true := by
  rw [strLe_iff, strLe_iff]
  exact le_total a b

theorem strLe_trans {a b c : String} (h1 : strLe a b = true) (h2 : strLe b c = true) :
    strLe a c = true := by
  rw [strLe_iff] at h1 h2 ⊢
  exact le_trans h1 h2

instance : IsTotal String fun a b => strLe a b = true := ⟨strLe_total⟩

instance : IsTrans String fun a b => strLe a b = true :=
  ⟨fun _ _ _ h1 h2 => strLe_trans h1 h2⟩

theorem sortStrings_perm (l : List String) : (sortStrings l).Perm l :=
  List.perm_insertionSort _ _

theorem sortStrings_sorted (l : List String) :
    List.Sorted (fun a b => strLe a b = true) (sortStrings l) :=
  List.sorted_insertionSort _ _

theorem primaryCode_min (g : List String) (hg : g ≠ []) :
    primaryCode g ∈ g ∧ ∀ x ∈ g, primaryCode g ≤ x := by
  have hperm := sortStrings_perm g
  have hsne : sortStrings g ≠ [] := fun hc => hg (List.Perm.eq_nil ((hc ▸ hperm).symm))
  cases hsort : sortStrings g with
  | nil => exact absurd hsort hsne
  | cons h t =>
    have hmin : ∀ x ∈ sortStrings g, h ≤ x := by
      intro x hx
      rcases List.mem_cons.mp (hsort ▸ hx) with rfl | hx2
      · exact le_refl x
      · have hs := sortStrings_sorted g
        rw [hsort] at hs
        exact (strLe_iff h x).mp (List.rel_of_sorted_cons hs x hx2)
    have hpc : primaryCode g = h := by simp [primaryCode, hsort]
    constructor
    · rw [hpc]
      exact hperm.mem_iff.mp (hsort ▸ List.mem_cons_self h t)
    · intro x hx
      rw [hpc]
      exact hmin x (hperm.mem_iff.mpr hx)

theorem primaryCode_eq_of_same_mem (g g2 : List String) (hg : g ≠ []) (hg2 : g2 ≠ [])
    (hsame : ∀ x, x ∈ g ↔ x ∈ g2) : primaryCode g = primaryCode g2 := by
  obtain ⟨hm, hmin⟩ := primaryCode_min g hg
  obtain ⟨hm2, hmin2⟩ := primaryCode_min g2 hg2
  exact le_antisymm (hmin _ ((hsame _).mpr hm2)) (hmin2 _ ((hsame _).mp hm))

/-! ### Row loop lemmas -/

theorem processRows_filter_accepted (rows : List SwapRow) (p : List (String × String))
    (f : List (String × String)) :
    processRows rows p f =
      processRows (rows.filter fun r => pyStrip r.really_equivalent == "Y") p f := by
  induction rows generalizing p f with
  | nil => rfl
  | cons r0 rest ih =>
    by_cases hacc : pyStrip r0.really_equivalent = "Y"
    · rw [List.filter_cons_of_pos (by simp [hacc])]
      show processRows (r0 :: rest) p f = processRows (r0 :: rest.filter _) p f
      simp only [processRows]
      split_ifs <;> first | rfl | apply ih
    · rw [List.filter_cons_of_neg (by simp [hacc])]
      show processRows (r0 :: rest) p f = processRows (rest.filter _) p f
      simp only [processRows]
      rw [if_pos hacc]
      exact ih p f

theorem processRows_error_of_bad (rows : List SwapRow) (p : List (String × String))
    (f : List (String × String))
    (h : ∃ r ∈ rows, pyStrip r.really_equivalent = "Y" ∧ badSwapRow r) :
    ∃ msg, processRows rows p f = .error msg := by
  induction rows generalizing p f with
  | nil => simp at h
  | cons r0 rest ih =>
    obtain ⟨r, hr, hacc, hbad⟩ := h
    rcases List.mem_cons.mp hr with rfl | hr2
    · show ∃ msg, processRows (r :: rest) p f = .error msg
      simp only [processRows]
      rw [if_neg (fun hc => hc hacc)]
      rcases hbad with hb | hb | hb
      · rw [if_pos hb]
        exact ⟨_, rfl⟩
      · by_cases hc1 : generic_equivalent_for_bnf_code (pyStrip r.code) ≠ some (pyStrip r.code)
        · rw [if_pos hc1]
          exact ⟨_, rfl⟩
        · rw [if_neg hc1, if_pos hb]
          exact ⟨_, rfl⟩
      · by_cases hc1 : generic_equivalent_for_bnf_code (pyStrip r.code) ≠ some (pyStrip r.code)
        · rw [if_pos hc1]
          exact ⟨_, rfl⟩
        · rw [if_neg hc1]
          by_cases hc2 : generic_equivalent_for_bnf_code (pyStrip r.alternative_code)
              ≠ some (pyStrip r.alternative_code)
          · rw [if_pos hc2]
            exact ⟨_, rfl⟩
          · rw [if_neg hc2, if_pos hb]
            exact ⟨_, rfl⟩
    · show ∃ msg, processRows (r0 :: rest) p f = .error msg
      simp only [processRows]
      split_ifs <;> first
        | exact ⟨_, rfl⟩
        | exact ih _ _ ⟨r, hr2, hacc, hbad⟩

theorem processRows_ok_of_good (rows : List SwapRow) (p : List (String × String))
    (f : List (String × String))
    (h : ∀ r ∈ rows, pyStrip r.really_equivalent = "Y" → ¬ badSwapRow r) :
    processRows rows p f = .ok (p ++ pairsOfRows rows, formsOfRows rows f) := by
  induction rows generalizing p f with
  | nil => simp [processRows, pairsOfRows, formsOfRows]
  | cons r0 rest ih =>
    by_cases hacc : pyStrip r0.really_equivalent = "Y"
    · have hgood := h r0 (by simp) hacc
      unfold badSwapRow at hgood
      push_neg at hgood
      obtain ⟨hg1, hg2, hg3⟩ := hgood
      show processRows (r0 :: rest) p f = _
      simp only [processRows]
      rw [if_neg (fun hc => hc hacc), if_neg (fun hc => hc hg1), if_neg (fun hc => hc hg2),
        if_neg hg3]
      rw [ih _ _ (fun r hr ha => h r (List.mem_cons_of_mem _ hr) ha)]
      have hpairs : pairsOfRows (r0 :: rest) =
          (pyStrip r0.code, pyStrip r0.alternative_code) :: pairsOfRows rest := by
        simp [pairsOfRows, List.filter_cons_of_pos, hacc]
      have hforms : formsOfRows (r0 :: rest) f =
          formsOfRows rest (updA (updA f (pyStrip r0.code) (pyStrip r0.formulation))
            (pyStrip r0.alternative_code) (pyStrip r0.alternative_formulation)) := by
        simp [formsOfRows, hacc]
      rw [hpairs, hforms]
      simp
    · show processRows (r0 :: rest) p f = _
      simp only [processRows]
      rw [if_pos hacc]
      rw [ih _ _ (fun r hr ha => h r (List.mem_cons_of_mem _ hr) ha)]
      have hpairs : pairsOfRows (r0 :: rest) = pairsOfRows rest := by
        simp [pairsOfRows, List.filter_cons_of_neg, hacc]
      have hforms : formsOfRows (r0 :: rest) f = formsOfRows rest f := by
        simp [formsOfRows, hacc]
      rw [hpairs, hforms]

theorem lastLabel_acc (rows : List SwapRow) (c : String) (acc : Option String) :
    rows.foldl (lastLabelStep c) acc =
      match rows.foldl (lastLabelStep c) none with
      | some l => some l
      | none => acc := by
  induction rows generalizing acc with
  | nil => simp
  | cons r rest ih =>
    simp only [List.foldl_cons]
    cases hr : rowLabel c r with
    | some l =>
      have hstep : ∀ a, lastLabelStep c a r = some l := by
        intro a
        simp [lastLabelStep, hr]
      rw [hstep, hstep, ih (some l)]
      cases rest.foldl (lastLabelStep c) none <;> rfl
    | none =>
      have hstep : ∀ a, lastLabelStep c a r = a := by
        intro a
        simp [lastLabelStep, hr]
      rw [hstep, hstep, ih acc]

theorem lookupA_formsOfRows (rows : List SwapRow) (m : List (String × String)) (c : String) :
    lookupA (formsOfRows rows m) c =
      match lastLabelAux rows c with
      | some l => some l
      | none => lookupA m c := by
  induction rows generalizing m with
  | nil => simp [formsOfRows, lastLabelAux]
  | cons r rest ih =>
    have hforms : formsOfRows (r :: rest) m = formsOfRows rest
        (if pyStrip r.really_equivalent = "Y" then
          updA (updA m (pyStrip r.code) (pyStrip r.formulation)) (pyStrip r.alternative_code)
            (pyStrip r.alternative_formulation)
        else m) := rfl
    have hlast : lastLabelAux (r :: rest) c =
        rest.foldl (lastLabelStep c) (lastLabelStep c none r) := rfl
    rw [hforms, ih, hlast, lastLabel_acc rest c (lastLabelStep c none r)]
    rw [show rest.foldl (lastLabelStep c) none = lastLabelAux rest c from rfl]
    cases hF : lastLabelAux rest c with
    | some l => rfl
    | none =>
      by_cases hacc : pyStrip r.really_equivalent = "Y"
      · rw [if_pos hacc]
        by_cases h1 : pyStrip r.alternative_code = c
        · rw [show lastLabelStep c none r = some (pyStrip r.alternative_formulation) from by
            simp [lastLabelStep, rowLabel, hacc, h1]]
          rw [← h1, lookupA_updA_self]
        · by_cases h2 : pyStrip r.code = c
          · rw [show lastLabelStep c none r = some (pyStrip r.formulation) from by
              simp [lastLabelStep, rowLabel, hacc, h1, h2]]
            rw [lookupA_updA_ne _ _ _ _ (fun hc => h1 hc.symm), ← h2, lookupA_updA_self]
          · rw [show lastLabelStep c none r = none from by
              simp [lastLabelStep, rowLabel, hacc, h1, h2]]
            rw [lookupA_updA_ne _ _ _ _ (fun hc => h1 hc.symm),
              lookupA_updA_ne _ _ _ _ (fun hc => h2 hc.symm)]
      · rw [if_neg hacc]
        rw [show lastLabelStep c none r = none from by simp [lastLabelStep, rowLabel, hacc]]

theorem get_formulation_swaps_fold_split (gl : List (List String × List String))
    (acc : List (String × String) × List (String × String)) :
    gl.foldl (fun acc cf =>
      let primary_code := primaryCode cf.1
      (cf.1.foldl (fun m code => updA m code primary_code) acc.1,
        if cf.2.length > 1 then
          updA acc.2 primary_code (String.intercalate " / " (sortStrings cf.2))
        else acc.2)) acc
    = (swapsFold gl acc.1, descsFold gl acc.2) := by
  induction gl generalizing acc with
  | nil => simp [swapsFold, descsFold]
  | cons cf rest ih =>
    simp only [List.foldl_cons]
    rw [ih]
    rfl

theorem get_formulation_swaps_inv (rows : List SwapRow)
    (sd : List (String × String) × List (String × String))
    (h : get_formulation_swaps rows = .ok sd) :
    ∃ pairs forms, processRows rows [] [] = .ok (pairs, forms) ∧
      read_formulation_swaps_file rows =
        .ok ((groups_from_pairs pairs).map fun g => (g, groupFormulations forms g)) ∧
      sd.1 = swapsFold ((groups_from_pairs pairs).map fun g =>
        (g, groupFormulations forms g)) [] ∧
      sd.2 = descsFold ((groups_from_pairs pairs).map fun g =>
        (g, groupFormulations forms g)) [] := by
  cases hp : processRows rows [] [] with
  | error e =>
    rw [get_formulation_swaps, read_formulation_swaps_file, hp] at h
    simp [Except.map] at h
  | ok pf =>
    obtain ⟨pairs, forms⟩ := pf
    have hread : read_formulation_swaps_file rows =
        .ok ((groups_from_pairs pairs).map fun g => (g, groupFormulations forms g)) := by
      rw [read_formulation_swaps_file, hp]
      rfl
    refine ⟨pairs, forms, rfl, hread, ?_⟩
    rw [get_formulation_swaps, hread] at h
    simp only [Except.map, Except.ok.injEq] at h
    rw [← h, get_formulation_swaps_fold_split]
    exact ⟨rfl, rfl⟩

/-! ### Swaps and descriptions folds -/

theorem swapsFold_lookup (gl : List (List String × List String))
    (m : List (String × String)) (c p : String)
    (hall : ∀ g fs, (g, fs) ∈ gl → c ∈ g → primaryCode g = p) :
    lookupA (swapsFold gl m) c =
      if ∃ gf ∈ gl, c ∈ gf.1 then some p else lookupA m c := by
  induction gl generalizing m with
  | nil => simp [swapsFold]
  | cons cf rest ih =>
    obtain ⟨g0, fs0⟩ := cf
    have hstep : swapsFold ((g0, fs0) :: rest) m =
        swapsFold rest (g0.foldl (fun m code => updA m code (primaryCode g0)) m) := rfl
    rw [hstep, ih _ (fun g fs hm hc => hall g fs (List.mem_cons_of_mem _ hm) hc)]
    by_cases hex : ∃ gf ∈ rest, c ∈ gf.1
    · rw [if_pos hex, if_pos (by obtain ⟨gf, h1, h2⟩ := hex; exact ⟨gf, List.mem_cons_of_mem _ h1, h2⟩)]
    · rw [if_neg hex, foldl_updA_const_lookup]
      by_cases hc0 : c ∈ g0
      · rw [if_pos hc0, hall g0 fs0 (by simp) hc0,
          if_pos (⟨(g0, fs0), by simp, hc0⟩ : ∃ gf ∈ (g0, fs0) :: rest, c ∈ gf.1)]
      · rw [if_neg hc0, if_neg ?_]
        rintro ⟨gf, hgf, hcf⟩
        rcases List.mem_cons.mp hgf with rfl | hmem
        · exact hc0 hcf
        · exact hex ⟨gf, hmem, hcf⟩

theorem descsFold_untouched (gl : List (List String × List String))
    (m : List (String × String)) (k : String)
    (h : ∀ g fs, (g, fs) ∈ gl → primaryCode g ≠ k) :
    lookupA (descsFold gl m) k = lookupA m k := by
  induction gl generalizing m with
  | nil => rfl
  | cons cf rest ih =>
    obtain ⟨g0, fs0⟩ := cf
    have hstep : descsFold ((g0, fs0) :: rest) m = descsFold rest
        (if fs0.length > 1 then
          updA m (primaryCode g0) (String.intercalate " / " (sortStrings fs0))
        else m) := rfl
    rw [hstep, ih _ (fun g fs hm => h g fs (List.mem_cons_of_mem _ hm))]
    by_cases hlen : fs0.length > 1
    · rw [if_pos hlen, lookupA_updA_ne _ _ _ _ (fun hc => h g0 fs0 (by simp) hc.symm)]
    · rw [if_neg hlen]

theorem descsFold_lookup (gl : List (List String × List String))
    (m : List (String × String)) (g : List String) (fs : List String)
    (hmem : (g, fs) ∈ gl)
    (hkey : ∀ g2 fs2, (g2, fs2) ∈ gl → primaryCode g2 = primaryCode g → (g2, fs2) = (g, fs)) :
    lookupA (descsFold gl m) (primaryCode g) =
      if fs.length > 1 then some (String.intercalate " / " (sortStrings fs))
      else lookupA m (primaryCode g) := by
  induction gl generalizing m with
  | nil => simp at hmem
  | cons cf rest ih =>
    obtain ⟨g0, fs0⟩ := cf
    have hstep : descsFold ((g0, fs0) :: rest) m = descsFold rest
        (if fs0.length > 1 then
          updA m (primaryCode g0) (String.intercalate " / " (sortStrings fs0))
        else m) := rfl
    rw [hstep]
    by_cases hp0 : primaryCode g0 = primaryCode g
    · have heq := hkey g0 fs0 (by simp) hp0
      injection heq with h1 h2
      subst h1
      subst h2
      by_cases hdup : (g0, fs0) ∈ rest
      · rw [ih _ hdup (fun g2 fs2 hm hp => hkey g2 fs2 (List.mem_cons_of_mem _ hm) hp)]
        by_cases hlen : fs0.length > 1 <;> simp [hlen]
      · rw [descsFold_untouched rest _ _ (fun g2 fs2 hm hp => by
          have hh := hkey g2 fs2 (List.mem_cons_of_mem _ hm) hp
          exact hdup (hh ▸ hm))]
        by_cases hlen : fs0.length > 1 <;> simp [hlen, lookupA_updA_self]
    · have hmem2 : (g, fs) ∈ rest := by
        rcases List.mem_cons.mp hmem with heq | h2
        · injection heq with h1 _
          exact absurd (h1 ▸ rfl) hp0
        · exact h2
      rw [ih _ hmem2 (fun g2 fs2 hm hp => hkey g2 fs2 (List.mem_cons_of_mem _ hm) hp)]
      by_cases hlen0 : fs0.length > 1
      · rw [if_pos hlen0, lookupA_updA_ne _ _ _ _ (fun hc => hp0 hc.symm)]
      · rw [if_neg hlen0]

/-- Two output groups sharing an element are the same group. -/
theorem groups_mem_unique {α : Type} [DecidableEq α] (ps : List (α × α))
    (g g2 : List α) (hg : g ∈ groups_from_pairs ps) (hg2 : g2 ∈ groups_from_pairs ps)
    (x : α) (hx : x ∈ g) (hx2 : x ∈ g2) : g = g2 := by
  obtain ⟨hcov, hcomp, hne, hdis⟩ := groups_from_pairs_isComponents ps
  by_cases hgg : g = g2
  · exact hgg
  · have hsymm : Symmetric fun g h : List α => ∀ x, x ∈ g → x ∉ h := by
      intro a b hab y hyb hya
      exact hab y hya hyb
    exact absurd hx2 (hdis.forall hsymm hg hg2 hgg x hx)

/-- In the mapped group list, the primary code determines the entry. -/
theorem groups_key_unique (ps : List (String × String)) (F : List String → List String)
    (g : List String) (hg : g ∈ groups_from_pairs ps) :
    ∀ g2 fs2, (g2, fs2) ∈ (groups_from_pairs ps).map (fun g => (g, F g)) →
      primaryCode g2 = primaryCode g → (g2, fs2) = (g, F g) := by
  intro g2 fs2 hmem hp
  obtain ⟨g3, hg3, heq⟩ := List.mem_map.mp hmem
  injection heq with h1 h2
  subst h1
  subst h2
  obtain ⟨hcov, hcomp, hne, hdis⟩ := groups_from_pairs_isComponents ps
  have hne2 := hne _ hg3
  have hneg := hne _ hg
  have hp2 := (primaryCode_min g3 hne2).1
  have hpg := (primaryCode_min g hneg).1
  have hshared : primaryCode g ∈ g3 := hp ▸ hp2
  rw [groups_mem_unique ps g3 g hg3 hg _ hshared hpg]

/-! ### Builder accumulation lemmas -/

theorem lookupA_appendAt (m : List (String × List String)) (k : String) (v : String)
    (k2 : String) :
    lookupA (appendAt m k v) k2 =
      if k2 = k then
        match lookupA m k with
        | some l => some (l ++ [v])
        | none => some [v]
      else lookupA m k2 := by
  induction m with
  | nil =>
    by_cases hk2 : k2 = k <;> simp [appendAt, lookupA, hk2]
  | cons kv rest ih =>
    obtain ⟨k0, l0⟩ := kv
    by_cases hk : k = k0
    · subst hk
      by_cases hk2 : k2 = k
      · subst hk2
        simp [appendAt, lookupA]
      · simp [appendAt, lookupA, hk2]
    · by_cases hk2 : k2 = k0
      · subst hk2
        have hk2k : k2 ≠ k := fun hc => hk hc.symm
        simp [appendAt, lookupA, hk, hk2k]
      · simp only [appendAt, if_neg hk, lookupA, if_neg hk2]
        rw [ih]

theorem keys_appendAt (m : List (String × List String)) (k : String) (v : String) :
    (appendAt m k v).map Prod.fst =
      if k ∈ m.map Prod.fst then m.map Prod.fst else m.map Prod.fst ++ [k] := by
  induction m with
  | nil => simp [appendAt]
  | cons kv rest ih =>
    obtain ⟨k0, l0⟩ := kv
    by_cases hk : k = k0
    · simp [appendAt, hk]
    · simp only [appendAt, if_neg hk, List.map_cons]
      rw [ih]
      by_cases hm : k ∈ rest.map Prod.fst
      · simp [hm, Ne.symm hk, hk]
      · simp [hm, Ne.symm hk, hk]

theorem nodupKeys_appendAt (m : List (String × List String)) (k : String) (v : String)
    (h : (m.map Prod.fst).Nodup) : ((appendAt m k v).map Prod.fst).Nodup := by
  rw [keys_appendAt]
  by_cases hm : k ∈ m.map Prod.fst
  · simpa [hm] using h
  · rw [if_neg hm]
    exact List.Nodup.append h (by simp) (by simpa [List.disjoint_singleton] using hm)

theorem builderStep_lookup (swaps : List (String × String)) (acc : List (String × List String))
    (b : String) (k : String) :
    lookupA (builderStep swaps acc b) k =
      if targetOf swaps b = some k then
        match lookupA acc k with
        | some l => some (l ++ [b])
        | none => some [b]
      else lookupA acc k := by
  unfold builderStep targetOf swapsGet
  cases hgen : generic_equivalent_for_bnf_code b with
  | none => simp
  | some g =>
    simp only [Option.map_some']
    rw [lookupA_appendAt]
    by_cases hk : k = (lookupA swaps g).getD g
    · rw [if_pos hk, if_pos (by rw [hk])]
      rw [hk]
    · rw [if_neg hk, if_neg (fun hc => hk (Option.some.inj hc).symm)]

theorem builderStep_keys_nodup (swaps : List (String × String))
    (acc : List (String × List String)) (b : String)
    (h : (acc.map Prod.fst).Nodup) : ((builderStep swaps acc b).map Prod.fst).Nodup := by
  unfold builderStep
  cases generic_equivalent_for_bnf_code b with
  | none => exact h
  | some g => exact nodupKeys_appendAt _ _ _ h

theorem builder_fold_keys_nodup (swaps : List (String × String)) (codes : List String)
    (acc : List (String × List String)) (h : (acc.map Prod.fst).Nodup) :
    ((codes.foldl (builderStep swaps) acc).map Prod.fst).Nodup := by
  induction codes generalizing acc with
  | nil => exact h
  | cons b rest ih => exact ih _ (builderStep_keys_nodup swaps acc b h)

theorem builder_accum_some (swaps : List (String × String)) (codes : List String)
    (acc : List (String × List String)) (k : String) (l0 : List String)
    (h : lookupA acc k = some l0) :
    lookupA (codes.foldl (builderStep swaps) acc) k =
      some (l0 ++ codes.filter fun b => targetOf swaps b == some k) := by
  induction codes generalizing acc l0 with
  | nil => simp [h]
  | cons b rest ih =>
    simp only [List.foldl_cons]
    by_cases ht : targetOf swaps b = some k
    · have hstep : lookupA (builderStep swaps acc b) k = some (l0 ++ [b]) := by
        rw [builderStep_lookup, if_pos ht, h]
      rw [ih _ _ hstep, List.filter_cons_of_pos (by simpa using ht)]
      simp
    · have hstep : lookupA (builderStep swaps acc b) k = some l0 := by
        rw [builderStep_lookup, if_neg ht, h]
      rw [ih _ _ hstep, List.filter_cons_of_neg (by simpa using ht)]

theorem builder_accum_none (swaps : List (String × String)) (codes : List String)
    (acc : List (String × List String)) (k : String)
    (h : lookupA acc k = none) :
    lookupA (codes.foldl (builderStep swaps) acc) k =
      if (codes.filter fun b => targetOf swaps b == some k) = [] then none
      else some (codes.filter fun b => targetOf swaps b == some k) := by
  induction codes generalizing acc with
  | nil => simp [h]
  | cons b rest ih =>
    simp only [List.foldl_cons]
    by_cases ht : targetOf swaps b = some k
    · have hstep : lookupA (builderStep swaps acc b) k = some [b] := by
        rw [builderStep_lookup, if_pos ht, h]
      rw [builder_accum_some swaps rest _ _ _ hstep,
        List.filter_cons_of_pos (by simpa using ht)]
      simp
    · have hstep : lookupA (builderStep swaps acc b) k = none := by
        rw [builderStep_lookup, if_neg ht, h]
      rw [ih _ hstep, List.filter_cons_of_neg (by simpa using ht)]

/-! ### Characterization of the swaps dict -/

theorem swaps_lookup_char (pairs : List (String × String)) (F : List String → List String)
    (c : String) (p : String) :
    lookupA (swapsFold ((groups_from_pairs pairs).map fun g => (g, F g)) []) c = some p ↔
      ∃ g ∈ groups_from_pairs pairs, c ∈ g ∧ p = primaryCode g := by
  constructor
  · intro hl
    by_cases hex : ∃ g ∈ groups_from_pairs pairs, c ∈ g
    · obtain ⟨g, hg, hcg⟩ := hex
      rw [swapsFold_lookup _ _ c (primaryCode g) ?_] at hl
      · rw [if_pos ?_] at hl
        · exact ⟨g, hg, hcg, (Option.some.inj hl).symm⟩
        · exact ⟨(g, F g), List.mem_map.mpr ⟨g, hg, rfl⟩, hcg⟩
      · intro g2 fs2 hm hc2
        obtain ⟨g3, hg3, heq⟩ := List.mem_map.mp hm
        injection heq with h1 h2
        subst h1
        rw [groups_mem_unique pairs g3 g hg3 hg c hc2 hcg]
    · rw [swapsFold_lookup _ _ c p ?_] at hl
      · rw [if_neg ?_] at hl
        · simp [lookupA] at hl
        · rintro ⟨gf, hgf, hcf⟩
          obtain ⟨g3, hg3, heq⟩ := List.mem_map.mp hgf
          exact hex ⟨gf.1, by rw [← heq]; exact hg3, hcf⟩
      · intro g2 fs2 hm hc2
        obtain ⟨g3, hg3, heq⟩ := List.mem_map.mp hm
        injection heq with h1 h2
        subst h1
        exact absurd ⟨g3, hg3, hc2⟩ hex
  · rintro ⟨g, hg, hcg, rfl⟩
    rw [swapsFold_lookup _ _ c (primaryCode g) ?_]
    · rw [if_pos ⟨(g, F g), List.mem_map.mpr ⟨g, hg, rfl⟩, hcg⟩]
    · intro g2 fs2 hm hc2
      obtain ⟨g3, hg3, heq⟩ := List.mem_map.mp hm
      injection heq with h1 h2
      subst h1
      rw [groups_mem_unique pairs g3 g hg3 hg c hc2 hcg]

theorem swaps_lookup_none_char (pairs : List (String × String))
    (F : List String → List String) (c : String) :
    lookupA (swapsFold ((groups_from_pairs pairs).map fun g => (g, F g)) []) c = none ↔
      ¬ ∃ g ∈ groups_from_pairs pairs, c ∈ g := by
  constructor
  · intro hl hex
    obtain ⟨g, hg, hcg⟩ := hex
    have := (swaps_lookup_char pairs F c (primaryCode g)).mpr ⟨g, hg, hcg, rfl⟩
    rw [hl] at this
    cases this
  · intro hex
    cases hl : lookupA (swapsFold ((groups_from_pairs pairs).map fun g => (g, F g)) []) c with
    | none => rfl
    | some p =>
      obtain ⟨g, hg, hcg, _⟩ := (swaps_lookup_char pairs F c p).mp hl
      exact absurd ⟨g, hg, hcg⟩ hex

theorem processRows_ok_elim (rows : List SwapRow) (p : List (String × String))
    (f : List (String × String)) (pf : List (String × String) × List (String × String))
    (h : processRows rows p f = .ok pf) :
    pf.1 = p ++ pairsOfRows rows ∧ pf.2 = formsOfRows rows f := by
  induction rows generalizing p f with
  | nil =>
    have hpf : pf = (p, f) := by
      simpa [processRows] using h.symm
    rw [hpf]
    simp [pairsOfRows, formsOfRows]
  | cons r0 rest ih =>
    by_cases hacc : pyStrip r0.really_equivalent = "Y"
    · have hpairs : pairsOfRows (r0 :: rest) =
          (pyStrip r0.code, pyStrip r0.alternative_code) :: pairsOfRows rest := by
        simp [pairsOfRows, List.filter_cons_of_pos, hacc]
      have hforms : formsOfRows (r0 :: rest) f =
          formsOfRows rest (updA (updA f (pyStrip r0.code) (pyStrip r0.formulation))
            (pyStrip r0.alternative_code) (pyStrip r0.alternative_formulation)) := by
        simp [formsOfRows, hacc]
      rw [hpairs, hforms]
      replace h : processRows (r0 :: rest) p f = .ok pf := h
      simp only [processRows] at h
      rw [if_neg (fun hc => hc hacc)] at h
      split_ifs at h with h1 h2 h3
      try cases h
      obtain ⟨hp1, hp2⟩ := ih _ _ h
      refine ⟨?_, hp2⟩
      rw [hp1]
      simp
    · have hpairs : pairsOfRows (r0 :: rest) = pairsOfRows rest := by
        simp [pairsOfRows, List.filter_cons_of_neg, hacc]
      have hforms : formsOfRows (r0 :: rest) f = formsOfRows rest f := by
        simp [formsOfRows, hacc]
      rw [hpairs, hforms]
      replace h : processRows (r0 :: rest) p f = .ok pf := h
      simp only [processRows] at h
      rw [if_pos hacc] at h
      exact ih _ _ h

/--
**C5.**  For every group yielded by the loader, the chosen primary code is
the lexicographically smallest member of the group (in particular it is a
member), every member of the group is mapped to it in the swaps dict, and the
mapping is independent of the order of the input rows.
-/
theorem C5_primary_code (rows rows2 : List SwapRow)
    (swaps descs swaps2 descs2 : List (String × String))
    (gl : List (List String × List String))
    (g fs : List String) (c c2 x : String)
    (h1 : get_formulation_swaps rows = .ok (swaps, descs))
    (hread : read_formulation_swaps_file rows = .ok gl)
    (hmem : (g, fs) ∈ gl) (hc : c ∈ g) (hx : x ∈ g)
    (hperm : rows.Perm rows2)
    (h2 : get_formulation_swaps rows2 = .ok (swaps2, descs2)) :
    primaryCode g ∈ g ∧ primaryCode g ≤ x ∧
    lookupA swaps c = some (primaryCode g) ∧
    lookupA swaps c2 = lookupA swaps2 c2 := by
  obtain ⟨pairs, forms, hp, hread2, hsw, hds⟩ := get_formulation_swaps_inv rows (swaps, descs) h1
  rw [hread] at hread2
  have hgl := Except.ok.inj hread2
  subst hgl
  obtain ⟨g2, hg2, heq⟩ := List.mem_map.mp hmem
  injection heq with hq1 hq2
  subst hq1
  obtain ⟨hcov, hcomp, hne, hdis⟩ := groups_from_pairs_isComponents pairs
  have hgne := hne _ hg2
  obtain ⟨hpm, hmin⟩ := primaryCode_min g2 hgne
  refine ⟨hpm, hmin x hx, ?_, ?_⟩
  · show lookupA swaps c = _
    rw [show swaps = (swaps, descs).1 from rfl, hsw]
    exact (swaps_lookup_char pairs _ c (primaryCode g2)).mpr ⟨g2, hg2, hc, rfl⟩
  · obtain ⟨pairs2, forms2, hp2, hread3, hsw2, hds2⟩ :=
      get_formulation_swaps_inv rows2 (swaps2, descs2) h2
    have hpairs1 : pairs = pairsOfRows rows := by
      have := (processRows_ok_elim rows [] [] _ hp).1
      simpa using this
    have hpairs2 : pairs2 = pairsOfRows rows2 := by
      have := (processRows_ok_elim rows2 [] [] _ hp2).1
      simpa using this
    have hmemiff : ∀ q, q ∈ pairs ↔ q ∈ pairs2 := by
      rw [hpairs1, hpairs2]
      intro q
      exact ((hperm.filter _).map _).mem_iff
    show lookupA swaps c2 = lookupA swaps2 c2
    rw [show swaps = (swaps, descs).1 from rfl, hsw,
      show swaps2 = (swaps2, descs2).1 from rfl, hsw2]
    cases hx2 : lookupA (swapsFold ((groups_from_pairs pairs).map fun g =>
        (g, groupFormulations forms g)) []) c2 with
    | some p =>
      obtain ⟨gA, hgA, hcA, hpA⟩ := (swaps_lookup_char pairs _ c2 p).mp hx2
      obtain ⟨gB, hgB, hsame⟩ := groups_from_pairs_mem_invariant pairs pairs2 hmemiff gA hgA
      have hcB : c2 ∈ gB := (hsame c2).mp hcA
      have hneA : gA ≠ [] := hne _ hgA
      have hneB : gB ≠ [] := (groups_from_pairs_isComponents pairs2).2.2.1 _ hgB
      have hpeq : primaryCode gA = primaryCode gB :=
        primaryCode_eq_of_same_mem _ _ hneA hneB hsame
      exact ((swaps_lookup_char pairs2 _ c2 p).mpr ⟨gB, hgB, hcB, by rw [hpA, hpeq]⟩).symm
    | none =>
      have hnex := (swaps_lookup_none_char pairs _ c2).mp hx2
      refine ((swaps_lookup_none_char pairs2 _ c2).mpr ?_).symm
      rintro ⟨gB, hgB, hcB⟩
      obtain ⟨gA, hgA, hsame⟩ := groups_from_pairs_mem_invariant pairs2 pairs
        (fun q => (hmemiff q).symm) gB hgB
      exact hnex ⟨gA, hgA, (hsame c2).mp hcB⟩

/-- Witness for C5 at a concrete swap file. -/
theorem C5_primary_code_witness :
    primaryCode ["040702040AAACAC", "040702040AAAHAH"] ∈ ["040702040AAACAC", "040702040AAAHAH"] ∧
    primaryCode ["040702040AAACAC", "040702040AAAHAH"] ≤ "040702040AAAHAH" ∧
    lookupA [("040702040AAACAC", "040702040AAACAC"), ("040702040AAAHAH", "040702040AAACAC")]
      "040702040AAAHAH" = some (primaryCode ["040702040AAACAC", "040702040AAAHAH"]) ∧
    lookupA [("040702040AAACAC", "040702040AAACAC"), ("040702040AAAHAH", "040702040AAACAC")]
      "040702040AAAHAH" =
    lookupA [("040702040AAACAC", "040702040AAACAC"), ("040702040AAAHAH", "040702040AAACAC")]
      "040702040AAAHAH" :=
  C5_primary_code
    [⟨"040702040AAACAC", "040702040AAAHAH", "Tab", "Cap", "Y"⟩]
    [⟨"040702040AAACAC", "040702040AAAHAH", "Tab", "Cap", "Y"⟩]
    [("040702040AAACAC", "040702040AAACAC"), ("040702040AAAHAH", "040702040AAACAC")]
    [("040702040AAACAC", "Cap / Tab")]
    [("040702040AAACAC", "040702040AAACAC"), ("040702040AAAHAH", "040702040AAACAC")]
    [("040702040AAACAC", "Cap / Tab")]
    [(["040702040AAACAC", "040702040AAAHAH"], ["Tab", "Cap"])]
    ["040702040AAACAC", "040702040AAAHAH"] ["Tab", "Cap"]
    "040702040AAAHAH" "040702040AAAHAH" "040702040AAAHAH"
    (by decide) (by decide) (by decide) (by decide) (by decide)
    (List.Perm.refl _) (by decide)

/--
**C10.**  Every primary code in the swaps dict maps to itself, so remapping
through `swaps.get(x, x)` is idempotent and the single remapping pass of the
builder reaches a fixed point.
-/
theorem C10_swaps_idempotent (rows : List SwapRow) (swaps descs : List (String × String))
    (c p x : String)
    (h : get_formulation_swaps rows = .ok (swaps, descs))
    (hcp : lookupA swaps c = some p) :
    lookupA swaps p = some p ∧ swapsGet swaps (swapsGet swaps x) = swapsGet swaps x := by
  obtain ⟨pairs, forms, hp, hread2, hsw, hds⟩ := get_formulation_swaps_inv rows (swaps, descs) h
  have hswaps : swaps = swapsFold ((groups_from_pairs pairs).map fun g =>
      (g, groupFormulations forms g)) [] := hsw
  have hself : ∀ c2 p2, lookupA swaps c2 = some p2 → lookupA swaps p2 = some p2 := by
    intro c2 p2 hc2
    rw [hswaps] at hc2 ⊢
    obtain ⟨g, hg, hcg, rfl⟩ := (swaps_lookup_char pairs _ c2 p2).mp hc2
    have hgne := (groups_from_pairs_isComponents pairs).2.2.1 _ hg
    exact (swaps_lookup_char pairs _ _ _).mpr ⟨g, hg, (primaryCode_min g hgne).1, rfl⟩
  refine ⟨hself c p hcp, ?_⟩
  unfold swapsGet
  cases hx : lookupA swaps x with
  | none => simp [hx]
  | some q =>
    simp only [Option.getD_some]
    rw [hself x q hx]
    rfl

/-- Witness for C10 at a concrete swap file. -/
theorem C10_swaps_idempotent_witness :
    lookupA [("040702040AAACAC", "040702040AAACAC"), ("040702040AAAHAH", "040702040AAACAC")]
      "040702040AAACAC" = some "040702040AAACAC" ∧
    swapsGet [("040702040AAACAC", "040702040AAACAC"), ("040702040AAAHAH", "040702040AAACAC")]
      (swapsGet [("040702040AAACAC", "040702040AAACAC"), ("040702040AAAHAH", "040702040AAACAC")]
        "040702040AAAHAH") =
    swapsGet [("040702040AAACAC", "040702040AAACAC"), ("040702040AAAHAH", "040702040AAACAC")]
      "040702040AAAHAH" :=
  C10_swaps_idempotent
    [⟨"040702040AAACAC", "040702040AAAHAH", "Tab", "Cap", "Y"⟩]
    [("040702040AAACAC", "040702040AAACAC"), ("040702040AAAHAH", "040702040AAACAC")]
    [("040702040AAACAC", "Cap / Tab")]
    "040702040AAAHAH" "040702040AAACAC" "040702040AAAHAH"
    (by decide) (by decide)

/--
**C7.**  Only rows whose trimmed flag field is exactly "Y" are considered
(the row loop computes the same result on the accepted-filtered row list),
and when any accepted row fails an assertion the whole load aborts with an
error rather than skipping the row.
-/
theorem C7_row_validation (rows : List SwapRow) (p f : List (String × String)) :
    processRows rows p f =
      processRows (rows.filter fun r => pyStrip r.really_equivalent == "Y") p f ∧
    ((∃ r ∈ rows, pyStrip r.really_equivalent = "Y" ∧ badSwapRow r) →
      ∃ msg, read_formulation_swaps_file rows = .error msg) := by
  refine ⟨processRows_filter_accepted rows p f, fun hbad => ?_⟩
  obtain ⟨msg, herr⟩ := processRows_error_of_bad rows [] [] hbad
  refine ⟨msg, ?_⟩
  rw [read_formulation_swaps_file, herr]
  rfl

/-- Witness for C7 with a concrete malformed row: the filter equation at that
row, and the inner implication discharged at it. -/
theorem C7_row_validation_witness :
    processRows [⟨"NOTGENERIC", "040702040AAACAC", "Tab", "Cap", "Y"⟩] [] [] =
      processRows ([⟨"NOTGENERIC", "040702040AAACAC", "Tab", "Cap", "Y"⟩].filter
        fun r => pyStrip r.really_equivalent == "Y") [] [] ∧
    ∃ msg, read_formulation_swaps_file
      [⟨"NOTGENERIC", "040702040AAACAC", "Tab", "Cap", "Y"⟩] = .error msg :=
  ⟨(C7_row_validation [⟨"NOTGENERIC", "040702040AAACAC", "Tab", "Cap", "Y"⟩] [] []).1,
    (C7_row_validation [⟨"NOTGENERIC", "040702040AAACAC", "Tab", "Cap", "Y"⟩] [] []).2
      ⟨⟨"NOTGENERIC", "040702040AAACAC", "Tab", "Cap", "Y"⟩, by decide, by decide, by decide⟩⟩

/--
**C6** counterexample: with two accepted rows both mentioning
"040702040AAACAC", the second row overwrites its label "Tab" with "Susp", so
the description contains only the most recent label per member; collecting
the labels from every accepted row, as the claim states, would give
"Cap / Oral / Susp / Tab" instead.
-/
theorem C6_counterexample :
    ((get_formulation_swaps
      [⟨"040702040AAACAC", "040702040AAAEAE", "Tab", "Cap", "Y"⟩,
        ⟨"040702040AAACAC", "040702040AAAHAH", "Susp", "Oral", "Y"⟩]).map
      fun sd => lookupA sd.2 "040702040AAACAC") = .ok (some "Cap / Oral / Susp") ∧
    String.intercalate " / " (sortStrings ["Tab", "Cap", "Susp", "Oral"]) =
      "Cap / Oral / Susp / Tab" ∧
    some "Cap / Oral / Susp" ≠ some "Cap / Oral / Susp / Tab" := by
  decide

/--
**C6** (amended): for every group yielded by the loader, the label set is the
set of distinct non-empty labels where each member contributes the label of
the most recent accepted row mentioning it (not of every such row); if that
set has more than one element, the description of the primary code is the
sorted labels joined by " / ", and with one element or none no description
entry exists for the group.
-/
theorem C6_formulation_labels (rows : List SwapRow)
    (gl : List (List String × List String)) (swaps descs : List (String × String))
    (g fs : List String) (l : String)
    (hread : read_formulation_swaps_file rows = .ok gl)
    (hswaps : get_formulation_swaps rows = .ok (swaps, descs))
    (hmem : (g, fs) ∈ gl) :
    (l ∈ fs ↔ (l ≠ "" ∧ ∃ c ∈ g, lastLabelAux rows c = some l)) ∧
    fs.Nodup ∧
    (fs.length > 1 → lookupA descs (primaryCode g) =
      some (String.intercalate " / " (sortStrings fs))) ∧
    (fs.length ≤ 1 → lookupA descs (primaryCode g) = none) := by
  obtain ⟨pairs, forms, hp, hread2, hsw, hds⟩ :=
    get_formulation_swaps_inv rows (swaps, descs) hswaps
  rw [hread] at hread2
  have hgl := Except.ok.inj hread2
  subst hgl
  obtain ⟨g2, hg2, heq⟩ := List.mem_map.mp hmem
  injection heq with hq1 hq2
  subst hq1
  subst hq2
  have hforms : forms = formsOfRows rows [] := (processRows_ok_elim rows [] [] _ hp).2
  have hlookup : ∀ c, lookupA forms c = lastLabelAux rows c := by
    intro c
    rw [hforms, lookupA_formsOfRows]
    cases lastLabelAux rows c <;> rfl
  refine ⟨?_, ?_, ?_, ?_⟩
  · unfold groupFormulations
    constructor
    · intro hl
      rw [List.mem_filter] at hl
      obtain ⟨hl1, hl2⟩ := hl
      rw [List.mem_filterMap] at hl1
      obtain ⟨o, ho, hid⟩ := hl1
      rw [List.mem_dedup] at ho
      obtain ⟨c, hcg, hco⟩ := List.mem_map.mp ho
      cases o with
      | none => cases hid
      | some l2 =>
        have hll : l2 = l := by simpa using hid
        subst hll
        refine ⟨by simpa using hl2, c, hcg, ?_⟩
        rw [← hlookup c, hco]
    · rintro ⟨hlne, c, hcg, hlast⟩
      rw [List.mem_filter]
      constructor
      · rw [List.mem_filterMap]
        refine ⟨some l, ?_, rfl⟩
        rw [List.mem_dedup]
        exact List.mem_map.mpr ⟨c, hcg, by rw [hlookup c, hlast]⟩
      · simpa using hlne
  · unfold groupFormulations
    refine List.Nodup.filter _ (List.Nodup.filterMap ?_ (List.nodup_dedup _))
    intro a a2 b hb hb2
    simp only [id_eq, Option.mem_def] at hb hb2
    rw [hb, hb2]
  · intro hlen
    show lookupA descs _ = _
    rw [show descs = (swaps, descs).2 from rfl, hds]
    rw [descsFold_lookup _ [] g2 (groupFormulations forms g2)
      (List.mem_map.mpr ⟨g2, hg2, rfl⟩) (groups_key_unique pairs _ g2 hg2)]
    rw [if_pos hlen]
  · intro hlen
    show lookupA descs _ = _
    rw [show descs = (swaps, descs).2 from rfl, hds]
    rw [descsFold_lookup _ [] g2 (groupFormulations forms g2)
      (List.mem_map.mpr ⟨g2, hg2, rfl⟩) (groups_key_unique pairs _ g2 hg2)]
    rw [if_neg (by omega)]
    rfl

/-- Witness for the amended C6 at a concrete swap file. -/
theorem C6_formulation_labels_witness :
    ("Tab" ∈ ["Tab", "Cap"] ↔ ("Tab" ≠ "" ∧
      ∃ c ∈ ["040702040AAACAC", "040702040AAAHAH"],
        lastLabelAux [⟨"040702040AAACAC", "040702040AAAHAH", "Tab", "Cap", "Y"⟩] c =
          some "Tab")) ∧
    (["Tab", "Cap"] : List String).Nodup ∧
    ((["Tab", "Cap"] : List String).length > 1 →
      lookupA [("040702040AAACAC", "Cap / Tab")]
        (primaryCode ["040702040AAACAC", "040702040AAAHAH"]) =
      some (String.intercalate " / " (sortStrings ["Tab", "Cap"]))) ∧
    ((["Tab", "Cap"] : List String).length ≤ 1 →
      lookupA [("040702040AAACAC", "Cap / Tab")]
        (primaryCode ["040702040AAACAC", "040702040AAAHAH"]) = none) :=
  C6_formulation_labels
    [⟨"040702040AAACAC", "040702040AAAHAH", "Tab", "Cap", "Y"⟩]
    [(["040702040AAACAC", "040702040AAAHAH"], ["Tab", "Cap"])]
    [("040702040AAACAC", "040702040AAACAC"), ("040702040AAAHAH", "040702040AAACAC")]
    [("040702040AAACAC", "Cap / Tab")]
    ["040702040AAACAC", "040702040AAAHAH"] ["Tab", "Cap"] "Tab"
    (by decide) (by decide) (by decide)

/--
**C9.**  Every substitution set in the builder output has at least two
presentations, and presentations are accumulated without deduplication: the
number of occurrences of a code in a set equals its number of occurrences in
the input list (and is zero for sets the code does not map to).
-/
theorem C9_substitution_set_size (bnf_codes : List String) (rows : List SwapRow)
    (resolver : String → Option String) (sets : List SubstitutionSet)
    (swaps descs : List (String × String)) (s : SubstitutionSet) (b : String)
    (hfs : get_formulation_swaps rows = .ok (swaps, descs))
    (hsets : get_substitution_sets_from_bnf_codes bnf_codes rows resolver = .ok sets)
    (hmem : s ∈ sets) :
    2 ≤ s.presentations.length ∧
    s.presentations.count b =
      if targetOf swaps b = some s.id then bnf_codes.count b else 0 := by
  rw [get_substitution_sets_from_bnf_codes, hfs] at hsets
  simp only [Except.map, Except.ok.injEq] at hsets
  rw [← hsets] at hmem
  obtain ⟨kv, hkv, hs⟩ := List.mem_map.mp hmem
  rw [List.mem_filter] at hkv
  obtain ⟨hkvP, hkvlen⟩ := hkv
  have hkvlen2 : 1 < kv.2.length := by simpa using hkvlen
  have hsid : s.id = kv.1 := by rw [← hs]
  have hspres : s.presentations = sortStrings kv.2 := by rw [← hs]
  have hkvP2 : kv ∈ bnf_codes.foldl (builderStep swaps) [] := hkvP
  have hnodup : ((bnf_codes.foldl (builderStep swaps) []).map Prod.fst).Nodup :=
    builder_fold_keys_nodup swaps bnf_codes [] (by simp)
  have hlook : lookupA (bnf_codes.foldl (builderStep swaps) []) kv.1 = some kv.2 :=
    lookupA_eq_of_mem _ _ _ hnodup hkvP2
  have hacc := builder_accum_none swaps bnf_codes [] kv.1 (by simp [lookupA])
  rw [hlook] at hacc
  by_cases hfil : (bnf_codes.filter fun b2 => targetOf swaps b2 == some kv.1) = []
  · rw [if_pos hfil] at hacc
    cases hacc
  · rw [if_neg hfil] at hacc
    have hkv2 : kv.2 = bnf_codes.filter fun b2 => targetOf swaps b2 == some kv.1 :=
      Option.some.inj hacc
    constructor
    · rw [hspres]
      have hlen := (sortStrings_perm kv.2).length_eq
      omega
    · rw [hspres, hsid, (sortStrings_perm kv.2).count_eq b, hkv2]
      by_cases ht : targetOf swaps b = some kv.1
      · rw [if_pos ht, List.count_filter (by simpa using ht)]
      · rw [if_neg ht]
        apply List.count_eq_zero_of_not_mem
        intro hbmem
        rw [List.mem_filter] at hbmem
        exact ht (by simpa using hbmem.2)

/-- Witness for C9 with a duplicated input code. -/
theorem C9_substitution_set_size_witness :
    2 ≤ (SubstitutionSet.mk "040702040AAACAC"
      ["040702040AAACAC", "040702040AAACAC", "040702040AAAHAH"] "unknown"
      (some "Cap / Tab")).presentations.length ∧
    (SubstitutionSet.mk "040702040AAACAC"
      ["040702040AAACAC", "040702040AAACAC", "040702040AAAHAH"] "unknown"
      (some "Cap / Tab")).presentations.count "040702040AAACAC" =
      if targetOf [("040702040AAACAC", "040702040AAACAC"),
          ("040702040AAAHAH", "040702040AAACAC")] "040702040AAACAC" =
        some (SubstitutionSet.mk "040702040AAACAC"
          ["040702040AAACAC", "040702040AAACAC", "040702040AAAHAH"] "unknown"
          (some "Cap / Tab")).id
      then ["040702040AAACAC", "040702040AAAHAH", "040702040AAACAC"].count "040702040AAACAC"
      else 0 :=
  C9_substitution_set_size
    ["040702040AAACAC", "040702040AAAHAH", "040702040AAACAC"]
    [⟨"040702040AAACAC", "040702040AAAHAH", "Tab", "Cap", "Y"⟩]
    (fun _ => none)
    [SubstitutionSet.mk "040702040AAACAC"
      ["040702040AAACAC", "040702040AAACAC", "040702040AAAHAH"] "unknown"
      (some "Cap / Tab")]
    [("040702040AAACAC", "040702040AAACAC"), ("040702040AAAHAH", "040702040AAACAC")]
    [("040702040AAACAC", "Cap / Tab")]
    (SubstitutionSet.mk "040702040AAACAC"
      ["040702040AAACAC", "040702040AAACAC", "040702040AAAHAH"] "unknown"
      (some "Cap / Tab"))
    "040702040AAACAC"
    (by decide) (by decide) (by decide)
